import Mathlib

/-!
A shallow embedding of the drone rescue-mission core
(grid world, A* pathfinder, drone movement, mission coordinator)
together with proofs of the specified properties.

Numeric conventions: Python floats are modelled as exact rationals.
The square root (math.sqrt, math.hypot, x ** 0.5) is modelled by a
dyadic rational approximation; no theorem below depends on its rounding.
-/

/- Batteries marks the rational-number operations irreducible; witness
evaluation below computes with them, so restore the default status. -/
set_option allowUnsafeReducibility true in
attribute [semireducible] Rat.add Rat.sub Rat.mul Rat.inv Rat.ofScientific

/-- Cell classification of the grid (CellType in the source; printed legend
0=N, 1=O, 2=D, 3=S, 4=DR). -/
inductive CellType where
  | NORMAL
  | OBSTACLE
  | DANGER
  | SURVIVOR
  | DRONE
deriving DecidableEq, Repr

/-- Grid coordinate (row, col), as in the source (Python ints). -/
abbrev Coord : Type := ℤ × ℤ

/-- Dyadic approximation of the floating-point square root used by
math.sqrt, math.hypot and ** 0.5 in the source.  Exact IEEE-754 rounding
is not modelled; no theorem in this development depends on its value. -/
def floatSqrt (q : ℚ) : ℚ :=
  (Nat.sqrt (⌊q * 2 ^ 104⌋).toNat : ℚ) / 2 ^ 52

/-- The grid world (src/models/map/map.py, class Map).  The numpy array is
modelled as a rectangular list of rows; height and width come from its shape.
The pheromone array is omitted: it is write-only in all code reachable from
the verified operations (it is read only by the visualizer / swarm module). -/
structure Map where
  grid : List (List CellType)

namespace Map

def height (m : Map) : ℕ := m.grid.length

def width (m : Map) : ℕ := (m.grid.headD []).length

/-- Cost settings of Map.__init__. -/
def cost_normal : ℚ := 1

def cost_danger : ℚ := 5

/-- grid[y][x].  Every access in the embedded code is guarded by in_bounds,
so the default value for out-of-range indices is never observable. -/
def cellAt (m : Map) (y x : ℤ) : CellType :=
  (m.grid.getD y.toNat []).getD x.toNat CellType.NORMAL

def in_bounds (m : Map) (y x : ℤ) : Bool :=
  decide (0 ≤ y ∧ y < (m.height : ℤ) ∧ 0 ≤ x ∧ x < (m.width : ℤ))

def is_walkable (m : Map) (y x : ℤ) : Bool :=
  if m.in_bounds y x = true then decide (m.cellAt y x ≠ CellType.OBSTACLE) else false

/-- Movement cost for A* (Map.get_cost). -/
def get_cost (m : Map) (y x : ℤ) : ℚ :=
  match m.cellAt y x with
  | CellType.NORMAL => cost_normal
  | CellType.DANGER => cost_danger
  | CellType.SURVIVOR => cost_normal
  | CellType.DRONE => cost_normal
  | CellType.OBSTACLE => 999999

end Map

/-! Association-list model of Python dicts: insertion-ordered, key overwrite
keeps the original position, deletion removes the key. -/

def dlookup {κ α : Type} [DecidableEq κ] : List (κ × α) → κ → Option α
  | [], _ => none
  | e :: rest, k => if e.1 = k then some e.2 else dlookup rest k

def dcontains {κ α : Type} [DecidableEq κ] (l : List (κ × α)) (k : κ) : Bool :=
  (dlookup l k).isSome

def dinsert {κ α : Type} [DecidableEq κ] (l : List (κ × α)) (k : κ) (v : α) :
    List (κ × α) :=
  if dcontains l k = true then l.map (fun e => if e.1 = k then (k, v) else e)
  else l ++ [(k, v)]

def ddel {κ α : Type} [DecidableEq κ] (l : List (κ × α)) (k : κ) : List (κ × α) :=
  l.filter (fun e => e.1 ≠ k)

def dvalues {κ α : Type} (l : List (κ × α)) : List α := l.map Prod.snd

/-! The A* pathfinder (src/models/ai/a_star.py). -/

/-- An entry of the frontier heap: (f_score, g_score, node). -/
abbrev HElem : Type := ℚ × ℚ × Coord

/-- Python tuple comparison on coordinates (total lexicographic order). -/
def coordLtB (p q : Coord) : Bool :=
  decide (p.1 < q.1 ∨ (p.1 = q.1 ∧ p.2 < q.2))

/-- Python tuple comparison on heap entries (f, then g, then coordinate). -/
def hLtB (a b : HElem) : Bool :=
  decide (a.1 < b.1) ||
    (decide (a.1 = b.1) &&
      (decide (a.2.1 < b.2.1) ||
        (decide (a.2.1 = b.2.1) && coordLtB a.2.2 b.2.2)))

/-- heapq.heappop: remove a minimal entry of the frontier.  Entries compare
by the total order hLtB; equal entries are identical tuples, so which one a
binary heap returns is unobservable and the first minimal one is taken. -/
def popMin : List HElem → Option (HElem × List HElem)
  | [] => none
  | e :: es =>
    match popMin es with
    | none => some (e, [])
    | some (m, rest) => if hLtB m e then some (m, e :: rest) else some (e, es)

structure AStar where
  world : Map
  allow_diagonal : Bool

namespace AStar

/-- neighbor deltas of AStar.__init__. -/
def orthDeltas : List (ℤ × ℤ) := [(0, 1), (1, 0), (0, -1), (-1, 0)]

def diagDeltas : List (ℤ × ℤ) := [(-1, -1), (-1, 1), (1, -1), (1, 1)]

/-- Heuristic: Manhattan for 4-way, Euclidean (math.hypot) for 8-way. -/
def heuristic (a : AStar) (p q : Coord) : ℚ :=
  let dy : ℤ := |p.1 - q.1|
  let dx : ℤ := |p.2 - q.2|
  if a.allow_diagonal = true then floatSqrt ((dy * dy + dx * dx : ℤ) : ℚ)
  else ((dy + dx : ℤ) : ℚ)

/-- AStar.neighbors: list of (neighbor_coord, move_cost_multiplier);
orthogonal neighbors first, then (optionally) diagonal neighbors with the
corner-cutting rejection. -/
def neighbors (a : AStar) (node : Coord) : List (Coord × ℚ) :=
  let y := node.1
  let x := node.2
  let orth := orthDeltas.filterMap (fun d =>
    let ny := y + d.1
    let nx := x + d.2
    if a.world.in_bounds ny nx = true ∧ a.world.is_walkable ny nx = true then
      some ((ny, nx), (1 : ℚ))
    else none)
  let diag :=
    if a.allow_diagonal = true then
      diagDeltas.filterMap (fun d =>
        let ny := y + d.1
        let nx := x + d.2
        if a.world.in_bounds ny nx = true ∧ a.world.is_walkable ny nx = true then
          if a.world.in_bounds ny x = true ∧ a.world.in_bounds y nx = true ∧
              (a.world.cellAt ny x = CellType.OBSTACLE ∨
                a.world.cellAt y nx = CellType.OBSTACLE) then
            none
          else some ((ny, nx), floatSqrt 2)
        else none)
    else []
  orth ++ diag

/-- AStar.reconstruct_path, unreversed accumulation: current node followed by
the chain of came_from parents.  The fuel argument only bounds the loop; the
invariants proved below show it is never exhausted on reachable states. -/
def reconstructAux : ℕ → List (Coord × Coord) → Coord → List Coord
  | 0, _, cur => [cur]
  | fuel + 1, cf, cur =>
    match dlookup cf cur with
    | none => [cur]
    | some p => cur :: reconstructAux fuel cf p

def reconstruct_path (fuel : ℕ) (cf : List (Coord × Coord)) (cur : Coord) :
    List Coord :=
  (reconstructAux fuel cf cur).reverse

/-- The mutable state of AStar.find_path's search loop. -/
structure AState where
  open_set : List HElem
  g_score : List (Coord × ℚ)
  f_score : List (Coord × ℚ)
  came_from : List (Coord × Coord)
  closed : List Coord

/-- Body of the neighbor loop of AStar.find_path. -/
def processNeighbor (a : AStar) (goal cur : Coord) (st : AState)
    (nb : Coord × ℚ) : AState :=
  if nb.1 ∈ st.closed then st
  else
    let cost := a.world.get_cost nb.1.1 nb.1.2 * nb.2
    let tg := (dlookup st.g_score cur).getD 0 + cost
    let better :=
      match dlookup st.g_score nb.1 with
      | some v => decide (tg < v)
      | none => true
    if better = true then
      let f := tg + a.heuristic nb.1 goal
      { st with
        came_from := dinsert st.came_from nb.1 cur
        g_score := dinsert st.g_score nb.1 tg
        f_score := dinsert st.f_score nb.1 f
        open_set := st.open_set ++ [(f, tg, nb.1)] }
    else st

/-- The while-loop of AStar.find_path.  Fuel bounds the iteration count; the
bound passed by find_path dominates the source loop's iteration count
(each iteration pops one heap entry, and at most 1 + 8 * cells entries are
ever pushed). -/
def loop (a : AStar) (goal : Coord) : ℕ → AState → Option (List Coord × ℚ)
  | 0, _ => none
  | fuel + 1, st =>
    match popMin st.open_set with
    | none => none
    | some (e, rest) =>
      let cur := e.2.2
      if cur ∈ st.closed then a.loop goal fuel { st with open_set := rest }
      else if cur = goal then
        some (reconstruct_path (st.came_from.length + 1) st.came_from cur,
          (dlookup st.g_score cur).getD 0)
      else
        let st1 : AState := { st with open_set := rest, closed := cur :: st.closed }
        let st2 := (a.neighbors cur).foldl (a.processNeighbor goal cur) st1
        a.loop goal fuel st2

def fuelBound (a : AStar) : ℕ := 10 * (a.world.height * a.world.width) + 10

/-- AStar.find_path: run A* from start to goal; (path, total_cost) or none. -/
def find_path (a : AStar) (start goal : Coord) : Option (List Coord × ℚ) :=
  if ¬ (a.world.in_bounds start.1 start.2 = true ∧
      a.world.in_bounds goal.1 goal.2 = true) then none
  else if ¬ (a.world.is_walkable start.1 start.2 = true ∧
      a.world.is_walkable goal.1 goal.2 = true) then none
  else
    let h0 := a.heuristic start goal
    a.loop goal (a.fuelBound)
      { open_set := [(h0, 0, start)]
        g_score := [(start, 0)]
        f_score := [(start, h0)]
        came_from := []
        closed := [] }

end AStar

/-! The drone (src/models/drone/drone.py).  The pheromone map and the
knowledge store are omitted: both are write-only in every operation the
claims reach (they are read only by the swarm/visualizer modules), and the
drone_type field is a constant never read. -/

structure Drone where
  drone_id : ℕ
  pos : Coord
  speed : ℚ
  path : List Coord
  target : Option Coord
  path_progress : ℚ
  current_waypoint_idx : ℕ
  total_distance_traveled : ℚ
deriving DecidableEq, Repr

def mkDrone (drone_id : ℕ) (start_pos : Coord) (speed : ℚ) : Drone :=
  { drone_id := drone_id
    pos := start_pos
    speed := speed
    path := []
    target := none
    path_progress := 0
    current_waypoint_idx := 0
    total_distance_traveled := 0 }

instance : Inhabited Drone := ⟨mkDrone 0 (0, 0) 1⟩

/-- Euclidean distance (dy ** 2 + dx ** 2) ** 0.5 between two cells. -/
def euclidDist (p q : Coord) : ℚ :=
  floatSqrt (((q.1 - p.1) ^ 2 + (q.2 - p.2) ^ 2 : ℤ) : ℚ)

namespace Drone

/-- Drone.assign_target: replace target and path, reset progress; if the
path starts at the current position, skip the first waypoint. -/
def assign_target (d : Drone) (target : Coord) (path : List Coord) : Drone :=
  let d1 := { d with
    target := some target
    path := path
    current_waypoint_idx := 0
    path_progress := 0 }
  match path with
  | [] => d1
  | p0 :: _ => if p0 = d.pos then { d1 with current_waypoint_idx := 1 } else d1

/-- The while-loop of Drone.move_step: while progress >= 1.0 and waypoints
remain, consume one waypoint.  Fuel equals the path length, which dominates
the iteration count (the waypoint index grows by one per iteration). -/
def consumeLoop : ℕ → Drone → Drone
  | 0, d => d
  | fuel + 1, d =>
    if d.path_progress ≥ 1 ∧ d.current_waypoint_idx < d.path.length then
      let old := d.pos
      let npos := d.path.getD d.current_waypoint_idx d.pos
      let d2 : Drone := { d with
        path_progress := d.path_progress - 1
        pos := npos
        current_waypoint_idx := d.current_waypoint_idx + 1
        total_distance_traveled :=
          if old ≠ npos then d.total_distance_traveled + euclidDist old npos
          else d.total_distance_traveled }
      consumeLoop fuel d2
    else d

/-- Drone.move_step: returns the updated drone and the current position. -/
def move_step (d : Drone) : Drone × Coord :=
  if d.path = [] ∨ d.current_waypoint_idx ≥ d.path.length then (d, d.pos)
  else
    let d1 : Drone := { d with path_progress := d.path_progress + d.speed }
    let d2 := consumeLoop d1.path.length d1
    (d2, d2.pos)

def reached_target (d : Drone) : Bool :=
  match d.target with
  | some t => decide (d.pos = t)
  | none => false

def has_active_target (d : Drone) : Bool :=
  match d.target with
  | some t => decide (d.pos ≠ t)
  | none => false

end Drone

/-! The mission coordinator (src/models/ai/mission_coordinator.py).
Python sets are modelled as duplicate-free lists (the invariants proved
below do not depend on their iteration order), and the assignments dict as
an insertion-ordered association list. -/

structure MissionCoordinator where
  world : Map
  spawn_point : Coord
  detection_radius : ℕ
  drone_spawn_delay : ℕ
  astar : AStar
  drones : List Drone
  known_survivors : List Coord
  rescued_survivors : List Coord
  discovered_survivors : List Coord
  all_survivors_in_map : List Coord
  assignments : List (ℕ × Coord)
  current_time : ℕ
  next_spawn_time : ℕ
  drone_id_counter : ℕ

def mkCoordinator (world : Map) (spawn_point : Coord) (detection_radius : ℕ)
    (drone_spawn_delay : ℕ) (allow_diagonal : Bool) : MissionCoordinator :=
  { world := world
    spawn_point := spawn_point
    detection_radius := detection_radius
    drone_spawn_delay := drone_spawn_delay
    astar := { world := world, allow_diagonal := allow_diagonal }
    drones := []
    known_survivors := []
    rescued_survivors := []
    discovered_survivors := []
    all_survivors_in_map := []
    assignments := []
    current_time := 0
    next_spawn_time := 0
    drone_id_counter := 0 }

/-- Python set union of two duplicate-free lists. -/
def setUnion (a b : List Coord) : List Coord := a ++ b.filter (fun c => decide (c ∉ a))

/-- Python set difference of two lists. -/
def setDiff (a b : List Coord) : List Coord := a.filter (fun c => decide (c ∉ b))

/-- Python range over integers. -/
def intRange (a b : ℤ) : List ℤ := (List.range (b - a).toNat).map (fun (k : ℕ) => a + (k : ℤ))

namespace MissionCoordinator

/-- MissionCoordinator.initialize_mission. -/
def init_mission (mc : MissionCoordinator) (initial_survivors : List Coord) :
    MissionCoordinator :=
  { mc with known_survivors := initial_survivors.dedup }

/-- MissionCoordinator.set_all_survivors. -/
def set_all (mc : MissionCoordinator) (all_survivors : List Coord) :
    MissionCoordinator :=
  { mc with all_survivors_in_map := all_survivors.dedup }

/-- MissionCoordinator.spawn_drone. -/
def spawn_drone (mc : MissionCoordinator) (speed : ℚ) : MissionCoordinator :=
  let d := mkDrone mc.drone_id_counter mc.spawn_point speed
  { mc with drones := mc.drones ++ [d], drone_id_counter := mc.drone_id_counter + 1 }

/-- Survivors that need rescue: (known | discovered) - rescued. -/
def availableSurvivors (mc : MissionCoordinator) : List Coord :=
  setDiff (setUnion mc.known_survivors mc.discovered_survivors) mc.rescued_survivors

/-- The inner loop of assign_tasks: scan the candidate survivors and keep
the strictly cheapest reachable one not already claimed in assignments. -/
def bestFor (a : AStar) (asg : List (ℕ × Coord)) (d : Drone) :
    List Coord → Option (Coord × List Coord × ℚ) → Option (Coord × List Coord × ℚ)
  | [], acc => acc
  | s :: rest, acc =>
    if s ∈ dvalues asg then bestFor a asg d rest acc
    else
      match a.find_path d.pos s with
      | none => bestFor a asg d rest acc
      | some (path, path_cost) =>
        let time_cost := path_cost / d.speed
        let better : Bool :=
          match acc with
          | none => true
          | some (_, _, best_cost) => decide (time_cost < best_cost)
        if better = true then bestFor a asg d rest (some (s, path, time_cost))
        else bestFor a asg d rest acc

/-- One iteration of the assignment pass over an available drone index. -/
def assignOne (a : AStar) (available_survivors : List Coord)
    (st : List Drone × List (ℕ × Coord)) (i : ℕ) :
    List Drone × List (ℕ × Coord) :=
  let d := st.1.getD i default
  match bestFor a st.2 d available_survivors none with
  | none => st
  | some (s, path, _) =>
    (st.1.set i (d.assign_target s path), dinsert st.2 d.drone_id s)

/-- MissionCoordinator.assign_tasks. -/
def assign_tasks (mc : MissionCoordinator) : MissionCoordinator :=
  let available_survivors := availableSurvivors mc
  let available_idx := (List.range mc.drones.length).filter (fun i =>
    match (mc.drones.getD i default).target with
    | none => true
    | some t => decide (t ∈ mc.rescued_survivors))
  if available_survivors = [] ∨ available_idx = [] then mc
  else
    let r := available_idx.foldl (assignOne mc.astar available_survivors)
      (mc.drones, mc.assignments)
    { mc with drones := r.1, assignments := r.2 }

/-- Unassigned survivors: (known | discovered) - rescued - assigned values. -/
def unassignedOf (mc : MissionCoordinator) : List Coord :=
  setDiff (availableSurvivors mc) (dvalues mc.assignments)

/-- The candidate scan of reassign_drones: the first unassigned survivor
whose path cost per speed is below half the current cost wins. -/
def findCandidate (a : AStar) (pos : Coord) (speed current_cost : ℚ) :
    List Coord → Option (Coord × List Coord)
  | [] => none
  | u :: rest =>
    match a.find_path pos u with
    | none => findCandidate a pos speed current_cost rest
    | some (path, path_cost) =>
      if path_cost / speed < current_cost * 0.5 then some (u, path)
      else findCandidate a pos speed current_cost rest

/-- One iteration of the reassignment pass over a drone index; the state is
((drones, assignments), unassigned). -/
def reassignOne (a : AStar)
    (st : (List Drone × List (ℕ × Coord)) × List Coord) (i : ℕ) :
    (List Drone × List (ℕ × Coord)) × List Coord :=
  let d := st.1.1.getD i default
  match d.target with
  | none => st
  | some t =>
    if d.pos = t then st
    else
      match a.find_path d.pos t with
      | none => st
      | some (_, current_path_cost) =>
        let current_cost := current_path_cost / d.speed
        match findCandidate a d.pos d.speed current_cost st.2 with
        | none => st
        | some (u, pu) =>
          ((st.1.1.set i (d.assign_target u pu),
            dinsert (ddel st.1.2 d.drone_id) d.drone_id u),
            st.2.erase u)

/-- MissionCoordinator.reassign_drones. -/
def reassign_drones (mc : MissionCoordinator) : MissionCoordinator :=
  let unassigned := unassignedOf mc
  if unassigned = [] then mc
  else
    let r := (List.range mc.drones.length).foldl (reassignOne mc.astar)
      ((mc.drones, mc.assignments), unassigned)
    { mc with drones := r.1.1, assignments := r.1.2 }

/-- MissionCoordinator.replan_if_needed. -/
def replan_if_needed (mc : MissionCoordinator) : MissionCoordinator :=
  if unassignedOf mc = [] then mc else mc.reassign_drones

/-- The bounding-box cell scan of check_detection. -/
def detectCells (mc : MissionCoordinator) (dpos : Coord) : List Coord :=
  let r : ℤ := mc.detection_radius
  (intRange (max 0 (dpos.1 - r)) (min (mc.world.height : ℤ) (dpos.1 + r + 1))).flatMap
    (fun y =>
      (intRange (max 0 (dpos.2 - r)) (min (mc.world.width : ℤ) (dpos.2 + r + 1))).map
        (fun x => (y, x)))

/-- Body of check_detection's cell scan; the state is (discovered, newly
found).  The source compares math.sqrt((y-dy)**2 + (x-dx)**2) > radius;
with integer cells and radius this is the comparison of the squares, which
is how it is modelled. -/
def detectStep (mc : MissionCoordinator) (dpos : Coord)
    (st : List Coord × List Coord) (c : Coord) : List Coord × List Coord :=
  if (c.1 - dpos.1) ^ 2 + (c.2 - dpos.2) ^ 2 > (mc.detection_radius : ℤ) ^ 2 then st
  else if c ∉ mc.known_survivors ∧ c ∉ st.1 ∧ c ∉ mc.rescued_survivors then
    if mc.world.cellAt c.1 c.2 = CellType.SURVIVOR then
      (st.1 ++ [c], st.2 ++ [c])
    else st
  else st

/-- MissionCoordinator.check_detection. -/
def check_detection (mc : MissionCoordinator) (d : Drone) :
    MissionCoordinator × List Coord :=
  let res := (mc.detectCells d.pos).foldl (mc.detectStep d.pos)
    (mc.discovered_survivors, [])
  ({ mc with discovered_survivors := res.1 }, res.2)

/-- MissionCoordinator.check_rescue, for the drone at index i. -/
def check_rescue (mc : MissionCoordinator) (i : ℕ) : MissionCoordinator × Bool :=
  let d := mc.drones.getD i default
  match d.target with
  | none => (mc, false)
  | some t =>
    if d.pos = t then
      ({ mc with
          rescued_survivors :=
            if t ∈ mc.rescued_survivors then mc.rescued_survivors
            else mc.rescued_survivors ++ [t]
          assignments :=
            if dcontains mc.assignments d.drone_id = true then
              ddel mc.assignments d.drone_id
            else mc.assignments
          drones := mc.drones.set i { d with target := none, path := [] } },
        true)
    else (mc, false)

/-- The body of step's per-drone loop: move, then detection check, then
rescue check; the accumulated list collects the discovered survivors. -/
def moveDetectRescue (st : MissionCoordinator × List Coord) (i : ℕ) :
    MissionCoordinator × List Coord :=
  let mc := st.1
  let d := mc.drones.getD i default
  let mv := d.move_step
  let mc1 := { mc with drones := mc.drones.set i mv.1 }
  let det := mc1.check_detection (mc1.drones.getD i default)
  let mc3 := (det.1.check_rescue i).1
  (mc3, st.2 ++ det.2)

/-- MissionCoordinator.step. -/
def step (mc : MissionCoordinator) (spawn_new_drone : Bool)
    (new_drone_speed : ℚ) : MissionCoordinator :=
  let mc1 :=
    if spawn_new_drone = true ∧ mc.current_time ≥ mc.next_spawn_time then
      { mc.spawn_drone new_drone_speed with
        next_spawn_time := mc.current_time + mc.drone_spawn_delay }
    else mc
  let r := (List.range mc1.drones.length).foldl moveDetectRescue (mc1, [])
  let mc2 := r.1
  let mc3 := if r.2 ≠ [] then mc2.replan_if_needed else mc2
  let mc4 := mc3.assign_tasks
  { mc4 with current_time := mc4.current_time + 1 }

/-- MissionCoordinator.is_mission_complete. -/
def is_mission_complete (mc : MissionCoordinator) : Bool :=
  decide (mc.rescued_survivors.length ≥
    (setUnion mc.known_survivors mc.discovered_survivors).length)

end MissionCoordinator

/-! Reachability of mission states.  OpA covers the operations named by the
assignment-uniqueness claim (plus the harmless set_all_survivors setter);
OpB covers missions that are initialized once and then driven only by
spawn_drone and step. -/

inductive OpA : MissionCoordinator → MissionCoordinator → Prop where
  | init_mission (mc : MissionCoordinator) (l : List Coord) :
      OpA mc (mc.init_mission l)
  | set_all (mc : MissionCoordinator) (l : List Coord) : OpA mc (mc.set_all l)
  | spawn (mc : MissionCoordinator) (s : ℚ) : OpA mc (mc.spawn_drone s)
  | sim_step (mc : MissionCoordinator) (b : Bool) (s : ℚ) :
      OpA mc (mc.step b s)

def ReachA : MissionCoordinator → MissionCoordinator → Prop :=
  Relation.ReflTransGen OpA

inductive OpB : MissionCoordinator → MissionCoordinator → Prop where
  | spawn (mc : MissionCoordinator) (s : ℚ) : OpB mc (mc.spawn_drone s)
  | sim_step (mc : MissionCoordinator) (b : Bool) (s : ℚ) :
      OpB mc (mc.step b s)

def ReachB : MissionCoordinator → MissionCoordinator → Prop :=
  Relation.ReflTransGen OpB

/-! Association-list lemmas. -/

theorem dlookup_none_of_not_contains {κ α : Type} [DecidableEq κ]
    {l : List (κ × α)} {k : κ} (h : dcontains l k = false) : dlookup l k = none := by
  unfold dcontains at h
  cases hl : dlookup l k with
  | none => rfl
  | some v => rw [hl] at h; simp at h

theorem dlookup_append {κ α : Type} [DecidableEq κ]
    (l₁ l₂ : List (κ × α)) (k : κ) :
    dlookup (l₁ ++ l₂) k =
      match dlookup l₁ k with
      | some v => some v
      | none => dlookup l₂ k := by
  induction l₁ with
  | nil => simp [dlookup]
  | cons e rest ih =>
    by_cases he : e.1 = k
    · simp [dlookup, he]
    · simp [dlookup, he, ih]

theorem dlookup_map_update_ne {κ α : Type} [DecidableEq κ]
    (l : List (κ × α)) (k : κ) (v : α) (k2 : κ) (hne : k2 ≠ k) :
    dlookup (l.map fun e => if e.1 = k then (k, v) else e) k2 = dlookup l k2 := by
  induction l with
  | nil => simp [dlookup]
  | cons e rest ih =>
    by_cases he : e.1 = k
    · have : e.1 ≠ k2 := by rw [he]; exact fun h => hne h.symm
      simp [dlookup, he, this, ih, Ne.symm hne]
    · simp only [List.map_cons, if_neg he]
      by_cases he2 : e.1 = k2
      · simp [dlookup, he2]
      · simp [dlookup, he2, ih]

theorem dlookup_map_update_eq {κ α : Type} [DecidableEq κ]
    (l : List (κ × α)) (k : κ) (v : α) (h : dcontains l k = true) :
    dlookup (l.map fun e => if e.1 = k then (k, v) else e) k = some v := by
  induction l with
  | nil => simp [dcontains, dlookup] at h
  | cons e rest ih =>
    by_cases he : e.1 = k
    · simp [dlookup, he]
    · have h2 : dcontains rest k = true := by
        simpa [dcontains, dlookup, he] using h
      simp [dlookup, he, ih h2]

theorem dlookup_dinsert {κ α : Type} [DecidableEq κ]
    (l : List (κ × α)) (k : κ) (v : α) (k2 : κ) :
    dlookup (dinsert l k v) k2 = if k2 = k then some v else dlookup l k2 := by
  unfold dinsert
  by_cases h : dcontains l k = true
  · simp only [h, if_pos rfl]
    by_cases hk : k2 = k
    · subst hk; simp [dlookup_map_update_eq l k2 v h]
    · simp [dlookup_map_update_ne l k v k2 hk, hk]
  · have hf : dcontains l k = false := by simpa using h
    simp only [hf, Bool.false_eq_true, if_neg, ite_false]
    rw [dlookup_append]
    by_cases hk : k2 = k
    · subst hk
      simp [dlookup_none_of_not_contains hf, dlookup]
    · cases hc : dlookup l k2 with
      | some w => simp [hk]
      | none => simp [hk, dlookup, Ne.symm hk]

theorem dlookup_ddel {κ α : Type} [DecidableEq κ]
    (l : List (κ × α)) (k k2 : κ) :
    dlookup (ddel l k) k2 = if k2 = k then none else dlookup l k2 := by
  induction l with
  | nil => simp [ddel, dlookup]
  | cons e rest ih =>
    by_cases he : e.1 = k
    · have hd : ddel (e :: rest) k = ddel rest k := by
        simp [ddel, List.filter_cons, he]
      rw [hd, ih]
      by_cases hk : k2 = k
      · simp [hk]
      · have hne : e.1 ≠ k2 := by rw [he]; exact fun h => hk h.symm
        simp [hk, dlookup, hne]
    · have hd : ddel (e :: rest) k = e :: ddel rest k := by
        simp [ddel, List.filter_cons, he]
      rw [hd]
      by_cases he2 : e.1 = k2
      · have hk : k2 ≠ k := fun h => he (he2.trans h)
        simp [dlookup, he2, hk]
      · simp [dlookup, he2, ih]

theorem dlookup_isSome_mem_keys {κ α : Type} [DecidableEq κ]
    {l : List (κ × α)} {k : κ} :
    (dlookup l k).isSome = true ↔ k ∈ l.map Prod.fst := by
  induction l with
  | nil => simp [dlookup]
  | cons e rest ih =>
    by_cases he : e.1 = k
    · simp [dlookup, he]
    · simp [dlookup, he, ih, Ne.symm he]

theorem dlookup_some_mem {κ α : Type} [DecidableEq κ]
    {l : List (κ × α)} {k : κ} {v : α} (h : dlookup l k = some v) : (k, v) ∈ l := by
  induction l with
  | nil => simp [dlookup] at h
  | cons e rest ih =>
    by_cases he : e.1 = k
    · simp only [dlookup, if_pos he] at h
      obtain ⟨e1, e2⟩ := e
      simp only at he
      subst he
      have hv : e2 = v := Option.some.inj h
      subst hv
      exact List.mem_cons_self _ _
    · simp only [dlookup, if_neg he] at h
      exact List.mem_cons_of_mem _ (ih h)

theorem keys_map_update {κ α : Type} [DecidableEq κ]
    (l : List (κ × α)) (k : κ) (v : α) :
    (l.map fun e => if e.1 = k then (k, v) else e).map Prod.fst = l.map Prod.fst := by
  induction l with
  | nil => simp
  | cons e rest ih =>
    by_cases he : e.1 = k
    · simp [he, ih]
    · simp [he, ih]

theorem keys_dinsert_nodup {κ α : Type} [DecidableEq κ]
    {l : List (κ × α)} {k : κ} {v : α} (h : (l.map Prod.fst).Nodup) :
    ((dinsert l k v).map Prod.fst).Nodup := by
  unfold dinsert
  by_cases hc : dcontains l k = true
  · rw [if_pos hc, keys_map_update]
    exact h
  · have hf : dcontains l k = false := by simpa using hc
    have hk : k ∉ l.map Prod.fst := by
      intro hmem
      have := dlookup_isSome_mem_keys.mpr hmem
      simp [dcontains] at hf
      simp [hf] at this
    rw [if_neg hc, List.map_append]
    refine List.nodup_append.mpr ⟨h, List.nodup_singleton _, ?_⟩
    intro x hx hx2
    simp at hx2
    subst hx2
    exact hk hx

theorem mem_dvalues_iff {κ α : Type} {l : List (κ × α)} {x : α} :
    x ∈ dvalues l ↔ ∃ e ∈ l, e.2 = x := by
  simp [dvalues]

theorem mem_dvalues_map_update {κ α : Type} [DecidableEq κ]
    {l : List (κ × α)} {k : κ} {v x : α}
    (h : x ∈ dvalues (l.map fun e => if e.1 = k then (k, v) else e)) :
    x = v ∨ x ∈ dvalues l := by
  rw [mem_dvalues_iff] at h
  obtain ⟨e, he, hx⟩ := h
  obtain ⟨e0, he0, hfe⟩ := List.mem_map.mp he
  by_cases h0 : e0.1 = k
  · rw [if_pos h0] at hfe
    subst hfe
    exact Or.inl hx.symm
  · rw [if_neg h0] at hfe
    subst hfe
    exact Or.inr (mem_dvalues_iff.mpr ⟨e0, he0, hx⟩)

theorem map_update_id {κ α : Type} [DecidableEq κ]
    {l : List (κ × α)} {k : κ} {v : α} (h : ∀ e ∈ l, e.1 ≠ k) :
    (l.map fun e => if e.1 = k then (k, v) else e) = l := by
  induction l with
  | nil => simp
  | cons e rest ih =>
    have he : e.1 ≠ k := h e (List.mem_cons_self _ _)
    simp only [List.map_cons, if_neg he]
    rw [ih fun e2 he2 => h e2 (List.mem_cons_of_mem _ he2)]

theorem dvalues_cons {κ α : Type} (e : κ × α) (l : List (κ × α)) :
    dvalues (e :: l) = e.2 :: dvalues l := rfl

theorem dvalues_append {κ α : Type} (l1 l2 : List (κ × α)) :
    dvalues (l1 ++ l2) = dvalues l1 ++ dvalues l2 := by
  simp [dvalues]

theorem dvalues_dinsert_fresh {κ α : Type} [DecidableEq κ]
    {l : List (κ × α)} {k : κ} {v : α}
    (hkeys : (l.map Prod.fst).Nodup) (hvals : (dvalues l).Nodup)
    (hfresh : v ∉ dvalues l) : (dvalues (dinsert l k v)).Nodup := by
  unfold dinsert
  by_cases hc : dcontains l k = true
  · rw [if_pos hc]
    clear hc
    induction l with
    | nil => simp [dvalues]
    | cons e rest ih =>
      rw [dvalues_cons] at hvals hfresh
      have hv1 : e.2 ∉ dvalues rest := (List.nodup_cons.mp hvals).1
      have hv2 : (dvalues rest).Nodup := (List.nodup_cons.mp hvals).2
      have hfv : v ≠ e.2 := fun hh => hfresh (by rw [hh]; exact List.mem_cons_self _ _)
      have hfr : v ∉ dvalues rest := fun hh => hfresh (List.mem_cons_of_mem _ hh)
      by_cases he : e.1 = k
      · have hnok : ∀ e2 ∈ rest, e2.1 ≠ k := by
          intro e2 he2 hk2
          have : e.1 ∈ rest.map Prod.fst := by
            rw [he, ← hk2]
            exact List.mem_map_of_mem _ he2
          exact (List.nodup_cons.mp hkeys).1 this
        simp only [List.map_cons, if_pos he, map_update_id hnok, dvalues_cons]
        exact List.nodup_cons.mpr ⟨hfr, hv2⟩
      · have hkeys2 : (rest.map Prod.fst).Nodup := (List.nodup_cons.mp hkeys).2
        simp only [List.map_cons, if_neg he, dvalues_cons]
        refine List.nodup_cons.mpr ⟨?_, ih hkeys2 hv2 hfr⟩
        intro hm
        rcases mem_dvalues_map_update hm with h2 | h2
        · exact hfv h2.symm
        · exact hv1 h2
  · rw [if_neg hc, dvalues_append]
    refine List.nodup_append.mpr ⟨hvals, List.nodup_singleton _, ?_⟩
    intro x hx hx2
    simp [dvalues] at hx2
    subst hx2
    exact hfresh hx

theorem ddel_subset {κ α : Type} [DecidableEq κ]
    (l : List (κ × α)) (k : κ) : ddel l k ⊆ l :=
  fun _ hx => List.mem_of_mem_filter hx

theorem dvalues_ddel_subset {κ α : Type} [DecidableEq κ]
    (l : List (κ × α)) (k : κ) : dvalues (ddel l k) ⊆ dvalues l := by
  intro x hx
  obtain ⟨e, he, hx⟩ := mem_dvalues_iff.mp hx
  exact mem_dvalues_iff.mpr ⟨e, ddel_subset l k he, hx⟩

theorem dvalues_ddel_nodup {κ α : Type} [DecidableEq κ]
    {l : List (κ × α)} (k : κ) (h : (dvalues l).Nodup) : (dvalues (ddel l k)).Nodup :=
  List.Nodup.sublist (List.Sublist.map _ (List.filter_sublist _)) h

theorem keys_ddel_nodup {κ α : Type} [DecidableEq κ]
    {l : List (κ × α)} (k : κ) (h : (l.map Prod.fst).Nodup) :
    ((ddel l k).map Prod.fst).Nodup :=
  List.Nodup.sublist (List.Sublist.map _ (List.filter_sublist _)) h

theorem dcontains_ddel_self {κ α : Type} [DecidableEq κ]
    (l : List (κ × α)) (k : κ) : dcontains (ddel l k) k = false := by
  simp [dcontains, dlookup_ddel]

/-- Two list members with equal images under an injective-on-the-list map
(map-Nodup) are equal. -/
theorem nodup_map_eq {α β : Type} {f : α → β} {l : List α}
    (h : (l.map f).Nodup) {a b : α} (ha : a ∈ l) (hb : b ∈ l)
    (hf : f a = f b) : a = b := by
  induction l with
  | nil => simp at ha
  | cons e rest ih =>
    rcases List.mem_cons.mp ha with rfl | ha2
    · rcases List.mem_cons.mp hb with rfl | hb2
      · rfl
      · exact absurd (hf ▸ List.mem_map_of_mem f hb2) (List.nodup_cons.mp h).1
    · rcases List.mem_cons.mp hb with rfl | hb2
      · exact absurd (hf ▸ List.mem_map_of_mem f ha2) (List.nodup_cons.mp h).1
      · exact ih (List.nodup_cons.mp h).2 ha2 hb2

theorem mem_setDiff {a b : List Coord} {c : Coord} :
    c ∈ setDiff a b ↔ c ∈ a ∧ c ∉ b := by
  simp [setDiff]

theorem mem_setUnion {a b : List Coord} {c : Coord} :
    c ∈ setUnion a b ↔ c ∈ a ∨ c ∈ b := by
  constructor
  · intro h
    rcases List.mem_append.mp h with h | h
    · exact Or.inl h
    · exact Or.inr (List.mem_of_mem_filter h)
  · intro h
    by_cases hc : c ∈ a
    · exact List.mem_append.mpr (Or.inl hc)
    · rcases h with h | h
      · exact absurd h hc
      · exact List.mem_append.mpr (Or.inr (List.mem_filter.mpr ⟨h, by simpa using hc⟩))

theorem setUnion_nodup {a b : List Coord} (ha : a.Nodup) (hb : b.Nodup) :
    (setUnion a b).Nodup := by
  rw [setUnion, List.nodup_append]
  refine ⟨ha, List.Nodup.filter _ hb, ?_⟩
  intro c hc hcb
  have := List.mem_filter.mp hcb
  simp at this
  exact this.2 hc

theorem setDiff_nodup {a b : List Coord} (ha : a.Nodup) : (setDiff a b).Nodup :=
  List.Nodup.filter _ ha

/-! Frame lemmas: which fields each operation leaves unchanged. -/

theorem consumeLoop_frame (fuel : ℕ) (d : Drone) :
    (Drone.consumeLoop fuel d).drone_id = d.drone_id ∧
    (Drone.consumeLoop fuel d).speed = d.speed ∧
    (Drone.consumeLoop fuel d).target = d.target ∧
    (Drone.consumeLoop fuel d).path = d.path := by
  induction fuel generalizing d with
  | zero => exact ⟨rfl, rfl, rfl, rfl⟩
  | succ n ih =>
    rw [Drone.consumeLoop]
    split
    · exact ih _
    · exact ⟨rfl, rfl, rfl, rfl⟩

theorem move_step_frame (d : Drone) :
    (d.move_step).1.drone_id = d.drone_id ∧
    (d.move_step).1.speed = d.speed ∧
    (d.move_step).1.target = d.target ∧
    (d.move_step).1.path = d.path := by
  rw [Drone.move_step]
  split
  · exact ⟨rfl, rfl, rfl, rfl⟩
  · exact consumeLoop_frame _ _

theorem assign_target_frame (d : Drone) (t : Coord) (p : List Coord) :
    (d.assign_target t p).drone_id = d.drone_id ∧
    (d.assign_target t p).speed = d.speed ∧
    (d.assign_target t p).pos = d.pos ∧
    (d.assign_target t p).target = some t := by
  rw [Drone.assign_target.eq_def]
  cases p with
  | nil => exact ⟨rfl, rfl, rfl, rfl⟩
  | cons p0 rest =>
    by_cases h : p0 = d.pos <;> simp [h]

/-- Replacing a list element by one with the same image leaves the mapped
list unchanged. -/
theorem map_set_congr {α β : Type} [Inhabited α] (f : α → β) :
    ∀ (l : List α) (i : ℕ) (d : α), f d = f (l.getD i default) →
      (l.set i d).map f = l.map f := by
  intro l
  induction l with
  | nil => intro i d h; simp
  | cons e rest ih =>
    intro i d h
    cases i with
    | zero =>
      simp only [List.getD_cons_zero] at h
      simp [List.set, h]
    | succ n =>
      simp only [List.getD_cons_succ] at h
      simp [List.set, ih n d h]

theorem getD_mem_of_lt {α : Type} [Inhabited α] {l : List α} {i : ℕ}
    (h : i < l.length) : l.getD i default ∈ l := by
  rw [List.getD_eq_getElem l default h]
  exact List.getElem_mem h

theorem mem_set_of_mem {α : Type} {l : List α} {i : ℕ} {d x : α}
    (h : x ∈ l.set i d) : x = d ∨ x ∈ l := by
  induction l generalizing i with
  | nil => simp at h
  | cons e rest ih =>
    cases i with
    | zero =>
      rcases List.mem_cons.mp h with rfl | h2
      · exact Or.inl rfl
      · exact Or.inr (List.mem_cons_of_mem _ h2)
    | succ n =>
      rcases List.mem_cons.mp h with rfl | h2
      · exact Or.inr (List.mem_cons_self _ _)
      · rcases ih h2 with h3 | h3
        · exact Or.inl h3
        · exact Or.inr (List.mem_cons_of_mem _ h3)

/-! Well-formedness of the coordinator's containers: unique drone-id keys
and pairwise-distinct target values in the assignment table, duplicate-free
survivor sets. -/

def WellFormed (mc : MissionCoordinator) : Prop :=
  (mc.assignments.map Prod.fst).Nodup ∧ (dvalues mc.assignments).Nodup ∧
  mc.known_survivors.Nodup ∧ mc.discovered_survivors.Nodup ∧
  mc.rescued_survivors.Nodup

theorem mem_dvalues_dinsert {κ α : Type} [DecidableEq κ]
    {l : List (κ × α)} {k : κ} {v x : α}
    (h : x ∈ dvalues (dinsert l k v)) : x = v ∨ x ∈ dvalues l := by
  unfold dinsert at h
  by_cases hc : dcontains l k = true
  · rw [if_pos hc] at h
    exact mem_dvalues_map_update h
  · rw [if_neg hc, dvalues_append] at h
    rcases List.mem_append.mp h with h2 | h2
    · exact Or.inr h2
    · simp [dvalues] at h2
      exact Or.inl h2

theorem bestFor_not_assigned (a : AStar) (asg : List (ℕ × Coord)) (d : Drone) :
    ∀ (ss : List Coord) (acc : Option (Coord × List Coord × ℚ)),
      (∀ s0 p0 c0, acc = some (s0, p0, c0) → s0 ∉ dvalues asg) →
      ∀ s p c, MissionCoordinator.bestFor a asg d ss acc = some (s, p, c) →
        s ∉ dvalues asg := by
  intro ss
  induction ss with
  | nil =>
    intro acc hacc s p c h
    exact hacc s p c h
  | cons s0 rest ih =>
    intro acc hacc s p c h
    rw [MissionCoordinator.bestFor] at h
    by_cases hs0 : s0 ∈ dvalues asg
    · rw [if_pos hs0] at h
      exact ih acc hacc s p c h
    · rw [if_neg hs0] at h
      cases hfp : a.find_path d.pos s0 with
      | none =>
        rw [hfp] at h
        exact ih acc hacc s p c h
      | some pc =>
        rw [hfp] at h
        obtain ⟨path, path_cost⟩ := pc
        simp only at h
        split at h
        · refine ih _ ?_ s p c h
          intro s1 p1 c1 he
          cases he
          exact hs0
        · exact ih acc hacc s p c h

theorem bestFor_mem (a : AStar) (asg : List (ℕ × Coord)) (d : Drone) :
    ∀ (ss : List Coord) (acc : Option (Coord × List Coord × ℚ)) (s : Coord)
      (p : List Coord) (c : ℚ),
      MissionCoordinator.bestFor a asg d ss acc = some (s, p, c) →
      acc = some (s, p, c) ∨ s ∈ ss := by
  intro ss
  induction ss with
  | nil =>
    intro acc s p c h
    exact Or.inl h
  | cons s0 rest ih =>
    intro acc s p c h
    rw [MissionCoordinator.bestFor] at h
    by_cases hs0 : s0 ∈ dvalues asg
    · rw [if_pos hs0] at h
      rcases ih acc s p c h with h2 | h2
      · exact Or.inl h2
      · exact Or.inr (List.mem_cons_of_mem _ h2)
    · rw [if_neg hs0] at h
      cases hfp : a.find_path d.pos s0 with
      | none =>
        rw [hfp] at h
        rcases ih acc s p c h with h2 | h2
        · exact Or.inl h2
        · exact Or.inr (List.mem_cons_of_mem _ h2)
      | some pc =>
        rw [hfp] at h
        obtain ⟨path, path_cost⟩ := pc
        simp only at h
        split at h
        · rcases ih _ s p c h with h2 | h2
          · cases h2
            exact Or.inr (List.mem_cons_self _ _)
          · exact Or.inr (List.mem_cons_of_mem _ h2)
        · rcases ih acc s p c h with h2 | h2
          · exact Or.inl h2
          · exact Or.inr (List.mem_cons_of_mem _ h2)

theorem findCandidate_mem (a : AStar) (pos : Coord) (speed cc : ℚ) :
    ∀ (l : List Coord) (u : Coord) (pu : List Coord),
      MissionCoordinator.findCandidate a pos speed cc l = some (u, pu) → u ∈ l := by
  intro l
  induction l with
  | nil => intro u pu h; simp [MissionCoordinator.findCandidate] at h
  | cons u0 rest ih =>
    intro u pu h
    rw [MissionCoordinator.findCandidate] at h
    cases hfp : a.find_path pos u0 with
    | none =>
      rw [hfp] at h
      exact List.mem_cons_of_mem _ (ih u pu h)
    | some pc =>
      rw [hfp] at h
      obtain ⟨path, path_cost⟩ := pc
      simp only at h
      split at h
      · cases h
        exact List.mem_cons_self _ _
      · exact List.mem_cons_of_mem _ (ih u pu h)

theorem nodup_not_mem_erase {α : Type} [BEq α] [LawfulBEq α] {l : List α} {a : α}
    (h : l.Nodup) : a ∉ l.erase a := by
  induction l with
  | nil => simp
  | cons e rest ih =>
    rw [List.erase_cons]
    by_cases he : e = a
    · subst he
      have hb : (e == e) = true := by simp
      simp only [hb, if_pos]
      exact (List.nodup_cons.mp h).1
    · have hb : (e == a) = false := by simpa using he
      simp only [hb, Bool.false_eq_true, if_neg, ite_false]
      intro hm
      rcases List.mem_cons.mp hm with h2 | h2
      · exact he h2.symm
      · exact ih (List.nodup_cons.mp h).2 h2

/-- Fold preservation of an invariant. -/
theorem foldl_invariant {α β : Type} {P : α → Prop} {f : α → β → α}
    (hf : ∀ st b, P st → P (f st b)) :
    ∀ (l : List β) (st : α), P st → P (l.foldl f st) := by
  intro l
  induction l with
  | nil => intro st h; exact h
  | cons b rest ih => intro st h; exact ih _ (hf st b h)

/-- Key and value well-formedness of an assignment table. -/
def AsgOk (asg : List (ℕ × Coord)) : Prop :=
  (asg.map Prod.fst).Nodup ∧ (dvalues asg).Nodup

theorem assignOne_asgOk (a : AStar) (surv : List Coord)
    (st : List Drone × List (ℕ × Coord)) (i : ℕ) (h : AsgOk st.2) :
    AsgOk (MissionCoordinator.assignOne a surv st i).2 := by
  rw [MissionCoordinator.assignOne]
  cases hb : MissionCoordinator.bestFor a st.2 (st.1.getD i default) surv none with
  | none => exact h
  | some spc =>
    obtain ⟨s, p, c⟩ := spc
    have hs : s ∉ dvalues st.2 := by
      refine bestFor_not_assigned a st.2 _ surv none ?_ s p c hb
      intro s0 p0 c0 he
      cases he
    exact ⟨keys_dinsert_nodup h.1, dvalues_dinsert_fresh h.1 h.2 hs⟩

/-- The invariant carried through the reassignment pass:
((drones, assignments), unassigned). -/
def RInvP (st : (List Drone × List (ℕ × Coord)) × List Coord) : Prop :=
  (st.1.2.map Prod.fst).Nodup ∧ (dvalues st.1.2).Nodup ∧ st.2.Nodup ∧
  ∀ u ∈ st.2, u ∉ dvalues st.1.2

theorem reassignOne_rinv (a : AStar) (i : ℕ)
    (st : (List Drone × List (ℕ × Coord)) × List Coord) (h : RInvP st) :
    RInvP (MissionCoordinator.reassignOne a st i) := by
  obtain ⟨hkeys, hvals, hnd, hdisj⟩ := h
  rw [MissionCoordinator.reassignOne]
  cases ht : (st.1.1.getD i default).target with
  | none => exact ⟨hkeys, hvals, hnd, hdisj⟩
  | some t =>
    simp only
    by_cases hp : (st.1.1.getD i default).pos = t
    · rw [if_pos hp]
      exact ⟨hkeys, hvals, hnd, hdisj⟩
    · rw [if_neg hp]
      cases hfp : a.find_path (st.1.1.getD i default).pos t with
      | none => exact ⟨hkeys, hvals, hnd, hdisj⟩
      | some pc =>
        obtain ⟨pt, ct⟩ := pc
        simp only
        cases hfc : MissionCoordinator.findCandidate a (st.1.1.getD i default).pos
            (st.1.1.getD i default).speed (ct / (st.1.1.getD i default).speed) st.2 with
        | none => exact ⟨hkeys, hvals, hnd, hdisj⟩
        | some upu =>
          obtain ⟨u, pu⟩ := upu
          dsimp only
          have hu : u ∈ st.2 := findCandidate_mem a _ _ _ st.2 u pu hfc
          have hu2 : u ∉ dvalues st.1.2 := hdisj u hu
          have hu3 : u ∉ dvalues (ddel st.1.2 (st.1.1.getD i default).drone_id) :=
            fun hm => hu2 (dvalues_ddel_subset _ _ hm)
          refine ⟨keys_dinsert_nodup (keys_ddel_nodup _ hkeys),
            dvalues_dinsert_fresh (keys_ddel_nodup _ hkeys)
              (dvalues_ddel_nodup _ hvals) hu3, ?_, ?_⟩
          · exact List.Nodup.sublist (List.erase_sublist _ _) hnd
          · intro u2 hu2mem hm
            dsimp only at hu2mem hm
            have hu2in : u2 ∈ st.2 := List.mem_of_mem_erase hu2mem
            have hne : u2 ≠ u := by
              intro he
              subst he
              exact nodup_not_mem_erase hnd hu2mem
            rcases mem_dvalues_dinsert hm with h2 | h2
            · exact hne h2
            · exact hdisj u2 hu2in (dvalues_ddel_subset _ _ h2)

theorem detectStep_nodup (mc : MissionCoordinator) (dpos : Coord)
    (st : List Coord × List Coord) (c : Coord) (h : st.1.Nodup) :
    ((mc.detectStep dpos st c).1).Nodup := by
  rw [MissionCoordinator.detectStep]
  split
  · exact h
  · split
    · next hcond =>
      split
      · refine List.nodup_append.mpr ⟨h, List.nodup_singleton _, ?_⟩
        intro x hx hx2
        simp at hx2
        subst hx2
        exact hcond.2.1 hx
      · exact h
    · exact h

theorem detectStep_superset (mc : MissionCoordinator) (dpos : Coord)
    (st : List Coord × List Coord) (c : Coord) : st.1 ⊆ (mc.detectStep dpos st c).1 := by
  rw [MissionCoordinator.detectStep]
  split
  · exact fun x hx => hx
  · split
    · split
      · exact fun x hx => List.mem_append.mpr (Or.inl hx)
      · exact fun x hx => hx
    · exact fun x hx => hx

theorem check_detection_wf (mc : MissionCoordinator) (d : Drone)
    (h : WellFormed mc) : WellFormed (mc.check_detection d).1 := by
  obtain ⟨h1, h2, h3, h4, h5⟩ := h
  refine ⟨h1, h2, h3, ?_, h5⟩
  exact foldl_invariant (P := fun st => st.1.Nodup)
    (fun st c hst => detectStep_nodup mc d.pos st c hst)
    (mc.detectCells d.pos) (mc.discovered_survivors, []) h4

theorem check_rescue_wf (mc : MissionCoordinator) (i : ℕ)
    (h : WellFormed mc) : WellFormed (mc.check_rescue i).1 := by
  obtain ⟨h1, h2, h3, h4, h5⟩ := h
  rw [MissionCoordinator.check_rescue]
  cases ht : (mc.drones.getD i default).target with
  | none => exact ⟨h1, h2, h3, h4, h5⟩
  | some t =>
    dsimp only
    split
    · refine ⟨?_, ?_, h3, h4, ?_⟩
      · show (List.map Prod.fst
            (if dcontains mc.assignments (mc.drones.getD i default).drone_id = true
              then ddel mc.assignments (mc.drones.getD i default).drone_id
              else mc.assignments)).Nodup
        split
        · exact keys_ddel_nodup _ h1
        · exact h1
      · show (dvalues
            (if dcontains mc.assignments (mc.drones.getD i default).drone_id = true
              then ddel mc.assignments (mc.drones.getD i default).drone_id
              else mc.assignments)).Nodup
        split
        · exact dvalues_ddel_nodup _ h2
        · exact h2
      · show (if t ∈ mc.rescued_survivors then mc.rescued_survivors
            else mc.rescued_survivors ++ [t]).Nodup
        split
        · exact h5
        · next hmem =>
          refine List.nodup_append.mpr ⟨h5, List.nodup_singleton _, ?_⟩
          intro x hx hx2
          simp at hx2
          subst hx2
          exact hmem hx
    · exact ⟨h1, h2, h3, h4, h5⟩

theorem assign_tasks_wf (mc : MissionCoordinator) (h : WellFormed mc) :
    WellFormed mc.assign_tasks := by
  obtain ⟨h1, h2, h3, h4, h5⟩ := h
  rw [MissionCoordinator.assign_tasks]
  dsimp only
  split
  · exact ⟨h1, h2, h3, h4, h5⟩
  · have hfold := foldl_invariant (P := fun st => AsgOk st.2)
      (f := MissionCoordinator.assignOne mc.astar (mc.availableSurvivors))
      (fun st b hb => assignOne_asgOk mc.astar mc.availableSurvivors st b hb)
      ((List.range mc.drones.length).filter fun i =>
        match (mc.drones.getD i default).target with
        | none => true
        | some t => decide (t ∈ mc.rescued_survivors))
      (mc.drones, mc.assignments) ⟨h1, h2⟩
    exact ⟨hfold.1, hfold.2, h3, h4, h5⟩

theorem reassign_drones_wf (mc : MissionCoordinator) (h : WellFormed mc) :
    WellFormed mc.reassign_drones := by
  obtain ⟨h1, h2, h3, h4, h5⟩ := h
  rw [MissionCoordinator.reassign_drones]
  dsimp only
  split
  · exact ⟨h1, h2, h3, h4, h5⟩
  · have hinit : RInvP ((mc.drones, mc.assignments), mc.unassignedOf) := by
      refine ⟨h1, h2, ?_, ?_⟩
      · exact setDiff_nodup (setDiff_nodup (setUnion_nodup h3 h4))
      · intro u hu
        exact (mem_setDiff.mp hu).2
    have hfold := foldl_invariant (P := RInvP)
      (fun st b hb => reassignOne_rinv mc.astar b st hb)
      (List.range mc.drones.length) ((mc.drones, mc.assignments), mc.unassignedOf)
      hinit
    exact ⟨hfold.1, hfold.2.1, h3, h4, h5⟩

theorem replan_wf (mc : MissionCoordinator) (h : WellFormed mc) :
    WellFormed mc.replan_if_needed := by
  rw [MissionCoordinator.replan_if_needed]
  split
  · exact h
  · exact reassign_drones_wf mc h

theorem moveDetectRescue_wf (st : MissionCoordinator × List Coord) (i : ℕ)
    (h : WellFormed st.1) : WellFormed (MissionCoordinator.moveDetectRescue st i).1 := by
  rw [MissionCoordinator.moveDetectRescue]
  dsimp only
  apply check_rescue_wf
  apply check_detection_wf
  exact h

theorem wf_congr {mc mc2 : MissionCoordinator}
    (ha : mc2.assignments = mc.assignments)
    (hk : mc2.known_survivors = mc.known_survivors)
    (hd : mc2.discovered_survivors = mc.discovered_survivors)
    (hr : mc2.rescued_survivors = mc.rescued_survivors)
    (h : WellFormed mc) : WellFormed mc2 := by
  rw [WellFormed, ha, hk, hd, hr]
  exact h

set_option maxHeartbeats 2000000 in
/-- Generic preservation of a state predicate across one step: it suffices
that the predicate survives the two clock-field updates, spawning, the
per-drone move/detect/rescue body, replanning and assignment. -/
theorem step_preserves (P : MissionCoordinator → Prop)
    (hnext : ∀ mc n, P mc → P { mc with next_spawn_time := n })
    (htime : ∀ mc n, P mc → P { mc with current_time := n })
    (hspawn : ∀ mc s, P mc → P (mc.spawn_drone s))
    (hmdr : ∀ (st : MissionCoordinator × List Coord) (i : ℕ), P st.1 →
      P (MissionCoordinator.moveDetectRescue st i).1)
    (hreplan : ∀ mc, P mc → P mc.replan_if_needed)
    (hassign : ∀ mc, P mc → P mc.assign_tasks)
    (mc : MissionCoordinator) (b : Bool) (s : ℚ) (h : P mc) : P (mc.step b s) := by
  rw [MissionCoordinator.step]
  dsimp only
  set mc1 := if b = true ∧ mc.current_time ≥ mc.next_spawn_time then
      { mc.spawn_drone s with
        next_spawn_time := mc.current_time + mc.drone_spawn_delay }
    else mc with hmc1
  have h1 : P mc1 := by
    rw [hmc1]
    split
    · exact hnext _ _ (hspawn mc s h)
    · exact h
  have h2 : P
      ((List.range mc1.drones.length).foldl MissionCoordinator.moveDetectRescue
        (mc1, [])).1 :=
    foldl_invariant (P := fun st : MissionCoordinator × List Coord => P st.1)
      (fun st i hst => hmdr st i hst) _ _ h1
  split
  · exact htime _ _ (hassign
      (((List.range mc1.drones.length).foldl MissionCoordinator.moveDetectRescue
        (mc1, [])).1.replan_if_needed)
      (hreplan _ h2))
  · exact htime _ _ (hassign
      (((List.range mc1.drones.length).foldl MissionCoordinator.moveDetectRescue
        (mc1, [])).1) h2)

theorem step_wf (mc : MissionCoordinator) (b : Bool) (s : ℚ)
    (h : WellFormed mc) : WellFormed (mc.step b s) :=
  step_preserves WellFormed (fun _ _ hw => hw) (fun _ _ hw => hw)
    (fun _ _ hw => hw) moveDetectRescue_wf replan_wf assign_tasks_wf mc b s h

theorem opA_wf {mc mc2 : MissionCoordinator} (h : OpA mc mc2)
    (hw : WellFormed mc) : WellFormed mc2 := by
  cases h with
  | init_mission l =>
    obtain ⟨h1, h2, _, h4, h5⟩ := hw
    exact ⟨h1, h2, List.nodup_dedup l, h4, h5⟩
  | set_all l => exact hw
  | spawn s => exact hw
  | sim_step b s => exact step_wf mc b s hw

theorem reachA_wf {mc0 mc : MissionCoordinator} (h : ReachA mc0 mc)
    (hw : WellFormed mc0) : WellFormed mc := by
  induction h with
  | refl => exact hw
  | tail _ hstep ih => exact opA_wf hstep ih

theorem opB_opA {mc mc2 : MissionCoordinator} (h : OpB mc mc2) : OpA mc mc2 := by
  cases h with
  | spawn s => exact OpA.spawn mc s
  | sim_step b s => exact OpA.sim_step mc b s

theorem reachB_reachA {mc0 mc : MissionCoordinator} (h : ReachB mc0 mc) :
    ReachA mc0 mc := by
  induction h with
  | refl => exact Relation.ReflTransGen.refl
  | tail _ hstep ih => exact Relation.ReflTransGen.tail ih (opB_opA hstep)

theorem mkCoordinator_wf (w : Map) (sp : Coord) (r delay : ℕ) (ad : Bool) :
    WellFormed (mkCoordinator w sp r delay ad) := by
  refine ⟨?_, ?_, ?_, ?_, ?_⟩ <;> simp [mkCoordinator, dvalues]

/-! Concrete fixtures used by the witnesses: a 5-by-5 all-free grid with a
mission whose single known survivor sits at (0, 4). -/

def wGrid : Map := ⟨List.replicate 5 (List.replicate 5 CellType.NORMAL)⟩

def wAStar : AStar := ⟨wGrid, false⟩

def wMC0 : MissionCoordinator := mkCoordinator wGrid (0, 0) 2 5 false

def wMC1 : MissionCoordinator := (wMC0.init_mission [(0, 4)]).step true 1

theorem wMC1_reach : ReachA wMC0 wMC1 :=
  Relation.ReflTransGen.tail
    (Relation.ReflTransGen.tail Relation.ReflTransGen.refl
      (OpA.init_mission wMC0 [(0, 4)]))
    (OpA.sim_step (wMC0.init_mission [(0, 4)]) true 1)

/-- No two distinct keys of an assignment table map to the same coordinate. -/
def AssignmentsInjective (asg : List (ℕ × Coord)) : Prop :=
  ∀ k1 k2 c, dlookup asg k1 = some c → dlookup asg k2 = some c → k1 = k2

theorem asgOk_injective {asg : List (ℕ × Coord)}
    (h1 : (asg.map Prod.fst).Nodup) (h2 : (dvalues asg).Nodup) :
    AssignmentsInjective asg := by
  intro k1 k2 c ha hb
  have ea := dlookup_some_mem ha
  have eb := dlookup_some_mem hb
  have hpair : ((k1, c) : ℕ × Coord) = (k2, c) :=
    nodup_map_eq (f := Prod.snd) h2 ea eb rfl
  exact congrArg Prod.fst hpair

/-- Claim C2: in every mission state reachable from an initialized
MissionCoordinator by initialize_mission, spawn_drone and step calls
(plus the inert set_all_survivors), the assignment table is injective on
its values — no two distinct drone ids map to the same target coordinate —
and this also holds at every intermediate state inside a single assignment
pass or reassignment pass. -/
theorem C2_assignments_injective (w : Map) (sp : Coord) (r delay : ℕ)
    (ad : Bool) (mc : MissionCoordinator)
    (h : ReachA (mkCoordinator w sp r delay ad) mc) :
    AssignmentsInjective mc.assignments ∧
    (∀ idxs : List ℕ, AssignmentsInjective
      ((idxs.foldl (MissionCoordinator.assignOne mc.astar mc.availableSurvivors)
        (mc.drones, mc.assignments)).2)) ∧
    (∀ idxs : List ℕ, AssignmentsInjective
      ((idxs.foldl (MissionCoordinator.reassignOne mc.astar)
        ((mc.drones, mc.assignments), mc.unassignedOf)).1.2)) := by
  obtain ⟨h1, h2, h3, h4, h5⟩ := reachA_wf h (mkCoordinator_wf w sp r delay ad)
  refine ⟨asgOk_injective h1 h2, ?_, ?_⟩
  · intro idxs
    have hfold := foldl_invariant (P := fun st : List Drone × List (ℕ × Coord) => AsgOk st.2)
      (fun st b hb => assignOne_asgOk mc.astar mc.availableSurvivors st b hb)
      idxs (mc.drones, mc.assignments) ⟨h1, h2⟩
    exact asgOk_injective hfold.1 hfold.2
  · intro idxs
    have hinit : RInvP ((mc.drones, mc.assignments), mc.unassignedOf) := by
      refine ⟨h1, h2, ?_, ?_⟩
      · exact setDiff_nodup (setDiff_nodup (setUnion_nodup h3 h4))
      · intro u hu
        exact (mem_setDiff.mp hu).2
    have hfold := foldl_invariant (P := RInvP)
      (fun st b hb => reassignOne_rinv mc.astar b st hb) idxs
      ((mc.drones, mc.assignments), mc.unassignedOf) hinit
    exact asgOk_injective hfold.1 hfold.2.1

/-- Witness for C2 at a concrete reachable mission state with a nonempty
assignment table. -/
theorem C2_assignments_injective_witness :
    dlookup wMC1.assignments 0 = some (0, 4) ∧ (0 : ℕ) = 0 :=
  ⟨by decide,
    (C2_assignments_injective wGrid (0, 0) 2 5 false wMC1 wMC1_reach).1 0 0 (0, 4)
      (by decide) (by decide)⟩

/-! Drone identities: ids are handed out by the spawn counter and no
operation ever changes a drone's id. -/

def IdsInv (mc : MissionCoordinator) : Prop :=
  mc.drones.map Drone.drone_id = List.range mc.drone_id_counter

theorem assignOne_ids (a : AStar) (sv : List Coord)
    (st : List Drone × List (ℕ × Coord)) (i : ℕ) :
    ((MissionCoordinator.assignOne a sv st i).1).map Drone.drone_id =
      st.1.map Drone.drone_id := by
  rw [MissionCoordinator.assignOne]
  cases hb : MissionCoordinator.bestFor a st.2 (st.1.getD i default) sv none with
  | none => rfl
  | some spc =>
    obtain ⟨s, p, c⟩ := spc
    dsimp only
    exact map_set_congr Drone.drone_id st.1 i _
      (assign_target_frame (st.1.getD i default) s p).1

theorem reassignOne_ids (a : AStar)
    (st : (List Drone × List (ℕ × Coord)) × List Coord) (i : ℕ) :
    ((MissionCoordinator.reassignOne a st i).1.1).map Drone.drone_id =
      st.1.1.map Drone.drone_id := by
  rw [MissionCoordinator.reassignOne]
  cases ht : (st.1.1.getD i default).target with
  | none => rfl
  | some t =>
    dsimp only
    split
    · rfl
    · cases hfp : a.find_path (st.1.1.getD i default).pos t with
      | none => rfl
      | some pc =>
        obtain ⟨pt, ct⟩ := pc
        dsimp only
        cases hfc : MissionCoordinator.findCandidate a (st.1.1.getD i default).pos
            (st.1.1.getD i default).speed (ct / (st.1.1.getD i default).speed) st.2 with
        | none => rfl
        | some upu =>
          obtain ⟨u, pu⟩ := upu
          dsimp only
          exact map_set_congr Drone.drone_id st.1.1 i _
            (assign_target_frame (st.1.1.getD i default) u pu).1

theorem check_rescue_frame (mc : MissionCoordinator) (i : ℕ) :
    (mc.check_rescue i).1.spawn_point = mc.spawn_point ∧
    (mc.check_rescue i).1.drone_id_counter = mc.drone_id_counter ∧
    (mc.check_rescue i).1.drones.map Drone.drone_id = mc.drones.map Drone.drone_id ∧
    (mc.check_rescue i).1.known_survivors = mc.known_survivors ∧
    (mc.check_rescue i).1.discovered_survivors = mc.discovered_survivors := by
  rw [MissionCoordinator.check_rescue]
  cases ht : (mc.drones.getD i default).target with
  | none => exact ⟨rfl, rfl, rfl, rfl, rfl⟩
  | some t =>
    dsimp only
    split
    · refine ⟨rfl, rfl, ?_, rfl, rfl⟩
      exact map_set_congr Drone.drone_id mc.drones i _ rfl
    · exact ⟨rfl, rfl, rfl, rfl, rfl⟩

theorem assign_tasks_frame (mc : MissionCoordinator) :
    mc.assign_tasks.spawn_point = mc.spawn_point ∧
    mc.assign_tasks.drone_id_counter = mc.drone_id_counter ∧
    mc.assign_tasks.drones.map Drone.drone_id = mc.drones.map Drone.drone_id ∧
    mc.assign_tasks.known_survivors = mc.known_survivors ∧
    mc.assign_tasks.discovered_survivors = mc.discovered_survivors ∧
    mc.assign_tasks.rescued_survivors = mc.rescued_survivors := by
  rw [MissionCoordinator.assign_tasks]
  dsimp only
  split
  · exact ⟨rfl, rfl, rfl, rfl, rfl, rfl⟩
  · refine ⟨rfl, rfl, ?_, rfl, rfl, rfl⟩
    exact foldl_invariant
      (P := fun st : List Drone × List (ℕ × Coord) =>
        st.1.map Drone.drone_id = mc.drones.map Drone.drone_id)
      (fun st b hb => (assignOne_ids mc.astar mc.availableSurvivors st b).trans hb)
      _ (mc.drones, mc.assignments) rfl

theorem reassign_drones_frame (mc : MissionCoordinator) :
    mc.reassign_drones.spawn_point = mc.spawn_point ∧
    mc.reassign_drones.drone_id_counter = mc.drone_id_counter ∧
    mc.reassign_drones.drones.map Drone.drone_id = mc.drones.map Drone.drone_id ∧
    mc.reassign_drones.known_survivors = mc.known_survivors ∧
    mc.reassign_drones.discovered_survivors = mc.discovered_survivors ∧
    mc.reassign_drones.rescued_survivors = mc.rescued_survivors := by
  rw [MissionCoordinator.reassign_drones]
  dsimp only
  split
  · exact ⟨rfl, rfl, rfl, rfl, rfl, rfl⟩
  · refine ⟨rfl, rfl, ?_, rfl, rfl, rfl⟩
    exact foldl_invariant
      (P := fun st : (List Drone × List (ℕ × Coord)) × List Coord =>
        st.1.1.map Drone.drone_id = mc.drones.map Drone.drone_id)
      (fun st b hb => (reassignOne_ids mc.astar st b).trans hb)
      _ ((mc.drones, mc.assignments), mc.unassignedOf) rfl

theorem replan_frame (mc : MissionCoordinator) :
    mc.replan_if_needed.spawn_point = mc.spawn_point ∧
    mc.replan_if_needed.drone_id_counter = mc.drone_id_counter ∧
    mc.replan_if_needed.drones.map Drone.drone_id = mc.drones.map Drone.drone_id ∧
    mc.replan_if_needed.known_survivors = mc.known_survivors ∧
    mc.replan_if_needed.discovered_survivors = mc.discovered_survivors ∧
    mc.replan_if_needed.rescued_survivors = mc.rescued_survivors := by
  rw [MissionCoordinator.replan_if_needed]
  split
  · exact ⟨rfl, rfl, rfl, rfl, rfl, rfl⟩
  · exact reassign_drones_frame mc

theorem moveDetectRescue_frame (st : MissionCoordinator × List Coord) (i : ℕ) :
    (MissionCoordinator.moveDetectRescue st i).1.spawn_point = st.1.spawn_point ∧
    (MissionCoordinator.moveDetectRescue st i).1.drone_id_counter =
      st.1.drone_id_counter ∧
    (MissionCoordinator.moveDetectRescue st i).1.drones.map Drone.drone_id =
      st.1.drones.map Drone.drone_id ∧
    (MissionCoordinator.moveDetectRescue st i).1.known_survivors =
      st.1.known_survivors := by
  have hids : (st.1.drones.set i ((st.1.drones.getD i default).move_step).1).map
      Drone.drone_id = st.1.drones.map Drone.drone_id :=
    map_set_congr Drone.drone_id st.1.drones i _
      (move_step_frame (st.1.drones.getD i default)).1
  rw [MissionCoordinator.moveDetectRescue]
  dsimp only
  exact ⟨(check_rescue_frame _ i).1, (check_rescue_frame _ i).2.1,
    ((check_rescue_frame _ i).2.2.1).trans hids, (check_rescue_frame _ i).2.2.2.1⟩

theorem idsInv_step (mc : MissionCoordinator) (b : Bool) (s : ℚ)
    (h : IdsInv mc) : IdsInv (mc.step b s) := by
  refine step_preserves IdsInv (fun _ _ hi => hi) (fun _ _ hi => hi) ?_ ?_ ?_ ?_ mc b s h
  · intro mc2 s2 hi
    rw [IdsInv, MissionCoordinator.spawn_drone]
    dsimp only
    rw [List.map_append, hi, List.range_succ]
    rfl
  · intro st i hi
    rw [IdsInv, (moveDetectRescue_frame st i).2.2.1, (moveDetectRescue_frame st i).2.1]
    exact hi
  · intro mc2 hi
    rw [IdsInv, (replan_frame mc2).2.2.1, (replan_frame mc2).2.1]
    exact hi
  · intro mc2 hi
    rw [IdsInv, (assign_tasks_frame mc2).2.2.1, (assign_tasks_frame mc2).2.1]
    exact hi

theorem idsInv_reachA {mc0 mc : MissionCoordinator} (h : ReachA mc0 mc)
    (h0 : IdsInv mc0) : IdsInv mc := by
  induction h with
  | refl => exact h0
  | tail _ hstep ih =>
    cases hstep with
    | init_mission l => exact ih
    | set_all l => exact ih
    | spawn s =>
      rw [IdsInv, MissionCoordinator.spawn_drone]
      dsimp only
      rw [List.map_append, ih, List.range_succ]
      rfl
    | sim_step b s => exact idsInv_step _ b s ih

theorem spawn_point_step (sp : Coord) (mc : MissionCoordinator) (b : Bool) (s : ℚ)
    (h : mc.spawn_point = sp) : (mc.step b s).spawn_point = sp := by
  refine step_preserves (fun m => m.spawn_point = sp)
    (fun _ _ hi => hi) (fun _ _ hi => hi) (fun _ _ hi => hi) ?_ ?_ ?_ mc b s h
  · intro st i hi
    rw [(moveDetectRescue_frame st i).1]
    exact hi
  · intro mc2 hi
    rw [(replan_frame mc2).1]
    exact hi
  · intro mc2 hi
    rw [(assign_tasks_frame mc2).1]
    exact hi

theorem spawn_point_reachA {mc0 mc : MissionCoordinator} (h : ReachA mc0 mc) :
    mc.spawn_point = mc0.spawn_point := by
  induction h with
  | refl => rfl
  | tail _ hstep ih =>
    cases hstep with
    | init_mission l => exact ih
    | set_all l => exact ih
    | spawn s => exact ih
    | sim_step b s => exact spawn_point_step _ _ b s ih

/-- Claim C10: every spawn_drone call appends a drone whose id is the number
of drones spawned before it (ids run 0, 1, 2, ... in spawn order), placed at
the coordinator's fixed spawn point with the caller-supplied speed; hence in
every reachable state the drone ids are pairwise distinct and the assignment
table's keys cannot collide between two drones. -/
theorem C10_spawn_ids (w : Map) (sp : Coord) (r delay : ℕ) (ad : Bool)
    (mc : MissionCoordinator)
    (h : ReachA (mkCoordinator w sp r delay ad) mc) :
    (∀ s : ℚ, (mc.spawn_drone s).drones =
      mc.drones ++ [mkDrone mc.drones.length sp s]) ∧
    mc.drones.map Drone.drone_id = List.range mc.drones.length ∧
    (mc.drones.map Drone.drone_id).Nodup := by
  have hids : IdsInv mc := idsInv_reachA h (by rw [IdsInv]; rfl)
  have hsp : mc.spawn_point = sp := spawn_point_reachA h
  have hlen : mc.drones.length = mc.drone_id_counter := by
    have := congrArg List.length hids
    simpa using this
  refine ⟨?_, ?_, ?_⟩
  · intro s
    rw [MissionCoordinator.spawn_drone, ← hlen, hsp]
  · rw [hids, hlen]
  · rw [hids]
    exact List.nodup_range _

/-- Witness for C10: after two spawns the ids are [0, 1], and a third spawn
appends the drone with id 2 at the spawn point with the supplied speed. -/
theorem C10_spawn_ids_witness :
    (((wMC0.spawn_drone 1).spawn_drone 2).spawn_drone 3).drones =
      ((wMC0.spawn_drone 1).spawn_drone 2).drones ++ [mkDrone 2 (0, 0) 3] := by
  have h := C10_spawn_ids wGrid (0, 0) 2 5 false ((wMC0.spawn_drone 1).spawn_drone 2)
    (Relation.ReflTransGen.tail
      (Relation.ReflTransGen.tail Relation.ReflTransGen.refl (OpA.spawn wMC0 1))
      (OpA.spawn (wMC0.spawn_drone 1) 2))
  exact (h.1 3).trans (by decide)

/-! The mission-set invariant: every rescued survivor, and every drone's
current target, lies in known ∪ discovered. -/

def MissionInv (mc : MissionCoordinator) : Prop :=
  (∀ c ∈ mc.rescued_survivors,
    c ∈ mc.known_survivors ∨ c ∈ mc.discovered_survivors) ∧
  (∀ d ∈ mc.drones, ∀ t, d.target = some t →
    t ∈ mc.known_survivors ∨ t ∈ mc.discovered_survivors)

theorem mem_availableSurvivors {mc : MissionCoordinator} {s : Coord}
    (h : s ∈ mc.availableSurvivors) :
    s ∈ mc.known_survivors ∨ s ∈ mc.discovered_survivors :=
  mem_setUnion.mp (mem_setDiff.mp h).1

theorem mem_unassignedOf {mc : MissionCoordinator} {s : Coord}
    (h : s ∈ mc.unassignedOf) :
    s ∈ mc.known_survivors ∨ s ∈ mc.discovered_survivors :=
  mem_availableSurvivors (mem_setDiff.mp h).1

/-- Targets assigned during an assignment pass come from the candidate list. -/
theorem assignOne_targets (a : AStar) (sv : List Coord) (Q : Coord → Prop)
    (hsv : ∀ s ∈ sv, Q s) (st : List Drone × List (ℕ × Coord)) (i : ℕ)
    (h : ∀ d ∈ st.1, ∀ t, d.target = some t → Q t) :
    ∀ d ∈ (MissionCoordinator.assignOne a sv st i).1, ∀ t,
      d.target = some t → Q t := by
  rw [MissionCoordinator.assignOne]
  cases hb : MissionCoordinator.bestFor a st.2 (st.1.getD i default) sv none with
  | none => exact h
  | some spc =>
    obtain ⟨s, p, c⟩ := spc
    dsimp only
    have hs : Q s := by
      rcases bestFor_mem a st.2 (st.1.getD i default) sv none s p c hb with h2 | h2
      · cases h2
      · exact hsv s h2
    intro d hd t htg
    rcases mem_set_of_mem hd with rfl | hd2
    · rw [(assign_target_frame (st.1.getD i default) s p).2.2.2] at htg
      cases htg
      exact hs
    · exact h d hd2 t htg

theorem reassignOne_targets (a : AStar) (Q : Coord → Prop)
    (st : (List Drone × List (ℕ × Coord)) × List Coord) (i : ℕ)
    (h : (∀ d ∈ st.1.1, ∀ t, d.target = some t → Q t) ∧ ∀ u ∈ st.2, Q u) :
    (∀ d ∈ (MissionCoordinator.reassignOne a st i).1.1, ∀ t,
      d.target = some t → Q t) ∧
    ∀ u ∈ (MissionCoordinator.reassignOne a st i).2, Q u := by
  obtain ⟨h1, h2⟩ := h
  rw [MissionCoordinator.reassignOne]
  cases ht : (st.1.1.getD i default).target with
  | none => exact ⟨h1, h2⟩
  | some t =>
    dsimp only
    split
    · exact ⟨h1, h2⟩
    · cases hfp : a.find_path (st.1.1.getD i default).pos t with
      | none => exact ⟨h1, h2⟩
      | some pc =>
        obtain ⟨pt, ct⟩ := pc
        dsimp only
        cases hfc : MissionCoordinator.findCandidate a (st.1.1.getD i default).pos
            (st.1.1.getD i default).speed (ct / (st.1.1.getD i default).speed) st.2 with
        | none => exact ⟨h1, h2⟩
        | some upu =>
          obtain ⟨u, pu⟩ := upu
          dsimp only
          have hu : Q u := h2 u (findCandidate_mem a _ _ _ st.2 u pu hfc)
          refine ⟨?_, ?_⟩
          · intro d hd t2 htg
            rcases mem_set_of_mem hd with rfl | hd2
            · rw [(assign_target_frame (st.1.1.getD i default) u pu).2.2.2] at htg
              cases htg
              exact hu
            · exact h1 d hd2 t2 htg
          · intro u2 hu2
            exact h2 u2 (List.mem_of_mem_erase hu2)

theorem assign_tasks_missionInv (mc : MissionCoordinator) (h : MissionInv mc) :
    MissionInv mc.assign_tasks := by
  obtain ⟨h1, h2⟩ := h
  have hf := assign_tasks_frame mc
  refine ⟨?_, ?_⟩
  · rw [hf.2.2.2.1, hf.2.2.2.2.1, hf.2.2.2.2.2]
    exact h1
  · rw [hf.2.2.2.1, hf.2.2.2.2.1]
    rw [MissionCoordinator.assign_tasks]
    dsimp only
    split
    · exact h2
    · exact foldl_invariant
        (P := fun st : List Drone × List (ℕ × Coord) =>
          ∀ d ∈ st.1, ∀ t, d.target = some t →
            t ∈ mc.known_survivors ∨ t ∈ mc.discovered_survivors)
        (fun st b hb => assignOne_targets mc.astar mc.availableSurvivors _
          (fun s hs => mem_availableSurvivors hs) st b hb)
        _ (mc.drones, mc.assignments) h2

theorem reassign_drones_missionInv (mc : MissionCoordinator) (h : MissionInv mc) :
    MissionInv mc.reassign_drones := by
  obtain ⟨h1, h2⟩ := h
  have hf := reassign_drones_frame mc
  refine ⟨?_, ?_⟩
  · rw [hf.2.2.2.1, hf.2.2.2.2.1, hf.2.2.2.2.2]
    exact h1
  · rw [hf.2.2.2.1, hf.2.2.2.2.1]
    rw [MissionCoordinator.reassign_drones]
    dsimp only
    split
    · exact h2
    · exact (foldl_invariant
        (P := fun st : (List Drone × List (ℕ × Coord)) × List Coord =>
          (∀ d ∈ st.1.1, ∀ t, d.target = some t →
            t ∈ mc.known_survivors ∨ t ∈ mc.discovered_survivors) ∧
          ∀ u ∈ st.2, u ∈ mc.known_survivors ∨ u ∈ mc.discovered_survivors)
        (fun st b hb => reassignOne_targets mc.astar _ st b hb)
        _ ((mc.drones, mc.assignments), mc.unassignedOf)
        ⟨h2, fun u hu => mem_unassignedOf hu⟩).1

theorem replan_missionInv (mc : MissionCoordinator) (h : MissionInv mc) :
    MissionInv mc.replan_if_needed := by
  rw [MissionCoordinator.replan_if_needed]
  split
  · exact h
  · exact reassign_drones_missionInv mc h

theorem getD_default_of_le {α : Type} [Inhabited α] {l : List α} {i : ℕ}
    (h : l.length ≤ i) : l.getD i default = default := by
  simp [List.getD_eq_getElem?_getD, List.getElem?_eq_none h]

theorem check_detection_discovered_superset (mc : MissionCoordinator) (d : Drone) :
    mc.discovered_survivors ⊆ (mc.check_detection d).1.discovered_survivors :=
  foldl_invariant (P := fun st : List Coord × List Coord =>
      mc.discovered_survivors ⊆ st.1)
    (fun st c hst x hx => detectStep_superset mc d.pos st c (hst hx))
    (mc.detectCells d.pos) (mc.discovered_survivors, []) (fun _ hx => hx)

theorem check_detection_missionInv (mc : MissionCoordinator) (d : Drone)
    (h : MissionInv mc) : MissionInv (mc.check_detection d).1 := by
  obtain ⟨h1, h2⟩ := h
  have hsup := check_detection_discovered_superset mc d
  refine ⟨?_, ?_⟩
  · intro c hc
    rcases h1 c hc with h3 | h3
    · exact Or.inl h3
    · exact Or.inr (hsup h3)
  · intro d2 hd2 t ht
    rcases h2 d2 hd2 t ht with h3 | h3
    · exact Or.inl h3
    · exact Or.inr (hsup h3)

theorem check_rescue_missionInv (mc : MissionCoordinator) (i : ℕ)
    (h : MissionInv mc) : MissionInv (mc.check_rescue i).1 := by
  obtain ⟨h1, h2⟩ := h
  rw [MissionCoordinator.check_rescue]
  cases ht : (mc.drones.getD i default).target with
  | none => exact ⟨h1, h2⟩
  | some t =>
    dsimp only
    split
    · have htu : t ∈ mc.known_survivors ∨ t ∈ mc.discovered_survivors := by
        by_cases hi : i < mc.drones.length
        · exact h2 (mc.drones.getD i default) (getD_mem_of_lt hi) t ht
        · rw [getD_default_of_le (Nat.le_of_not_lt hi)] at ht
          cases ht
      refine ⟨?_, ?_⟩
      · intro c hc
        show c ∈ mc.known_survivors ∨ c ∈ mc.discovered_survivors
        have hc2 : c ∈ (if t ∈ mc.rescued_survivors then mc.rescued_survivors
            else mc.rescued_survivors ++ [t]) := hc
        rcases (by
          by_cases hmem : t ∈ mc.rescued_survivors
          · rw [if_pos hmem] at hc2
            exact Or.inl hc2
          · rw [if_neg hmem] at hc2
            rcases List.mem_append.mp hc2 with h3 | h3
            · exact Or.inl h3
            · exact Or.inr (by simpa using h3) :
            c ∈ mc.rescued_survivors ∨ c = t) with h3 | h3
        · exact h1 c h3
        · rw [h3]
          exact htu
      · intro d2 hd2 t2 ht2
        rcases mem_set_of_mem hd2 with rfl | hd3
        · cases ht2
        · exact h2 d2 hd3 t2 ht2
    · exact ⟨h1, h2⟩

theorem moveDetectRescue_missionInv (st : MissionCoordinator × List Coord)
    (i : ℕ) (h : MissionInv st.1) :
    MissionInv (MissionCoordinator.moveDetectRescue st i).1 := by
  obtain ⟨h1, h2⟩ := h
  rw [MissionCoordinator.moveDetectRescue]
  dsimp only
  apply check_rescue_missionInv
  apply check_detection_missionInv
  refine ⟨h1, ?_⟩
  intro d2 hd2 t ht
  rcases mem_set_of_mem hd2 with rfl | hd3
  · rw [(move_step_frame (st.1.drones.getD i default)).2.2.1] at ht
    by_cases hi : i < st.1.drones.length
    · exact h2 (st.1.drones.getD i default) (getD_mem_of_lt hi) t ht
    · rw [getD_default_of_le (Nat.le_of_not_lt hi)] at ht
      cases ht
  · exact h2 d2 hd3 t ht

theorem spawn_missionInv (mc : MissionCoordinator) (s : ℚ)
    (h : MissionInv mc) : MissionInv (mc.spawn_drone s) := by
  obtain ⟨h1, h2⟩ := h
  refine ⟨h1, ?_⟩
  intro d hd t ht
  rcases List.mem_append.mp hd with h3 | h3
  · exact h2 d h3 t ht
  · have : d = mkDrone mc.drone_id_counter mc.spawn_point s := by simpa using h3
    rw [this] at ht
    cases ht

theorem step_missionInv (mc : MissionCoordinator) (b : Bool) (s : ℚ)
    (h : MissionInv mc) : MissionInv (mc.step b s) :=
  step_preserves MissionInv (fun _ _ hi => hi) (fun _ _ hi => hi)
    spawn_missionInv moveDetectRescue_missionInv replan_missionInv
    assign_tasks_missionInv mc b s h

theorem missionInv_reachB {mc0 mc : MissionCoordinator} (h : ReachB mc0 mc)
    (h0 : MissionInv mc0) : MissionInv mc := by
  induction h with
  | refl => exact h0
  | tail _ hstep ih =>
    cases hstep with
    | spawn s => exact spawn_missionInv _ s ih
    | sim_step b s => exact step_missionInv _ b s ih

theorem init_missionInv (w : Map) (sp : Coord) (r delay : ℕ) (ad : Bool)
    (init : List Coord) :
    MissionInv ((mkCoordinator w sp r delay ad).init_mission init) := by
  constructor
  · intro c hc
    simp [mkCoordinator, MissionCoordinator.init_mission] at hc
  · intro d hd
    simp [mkCoordinator, MissionCoordinator.init_mission] at hd

/-- Five steps of the witness mission: the survivor at (0, 4) is rescued. -/
def wMC5 : MissionCoordinator :=
  (((((wMC0.init_mission [(0, 4)]).step true 1).step false 1).step
    false 1).step false 1).step false 1

theorem wMC5_reachB : ReachB (wMC0.init_mission [(0, 4)]) wMC5 :=
  Relation.ReflTransGen.tail
    (Relation.ReflTransGen.tail
      (Relation.ReflTransGen.tail
        (Relation.ReflTransGen.tail
          (Relation.ReflTransGen.tail Relation.ReflTransGen.refl
            (OpB.sim_step (wMC0.init_mission [(0, 4)]) true 1))
          (OpB.sim_step ((wMC0.init_mission [(0, 4)]).step true 1) false 1))
        (OpB.sim_step (((wMC0.init_mission [(0, 4)]).step true 1).step false 1)
          false 1))
      (OpB.sim_step ((((wMC0.init_mission [(0, 4)]).step true 1).step
        false 1).step false 1) false 1))
    (OpB.sim_step (((((wMC0.init_mission [(0, 4)]).step true 1).step
      false 1).step false 1).step false 1) false 1)

/-- Claim C3: in every mission state reachable from an initialized
MissionCoordinator by spawn_drone and step calls, the rescued set is
contained in the union of the known and discovered sets. -/
theorem C3_rescued_subset (w : Map) (sp : Coord) (r delay : ℕ) (ad : Bool)
    (init : List Coord) (mc : MissionCoordinator)
    (h : ReachB ((mkCoordinator w sp r delay ad).init_mission init) mc) :
    ∀ c ∈ mc.rescued_survivors,
      c ∈ mc.known_survivors ∨ c ∈ mc.discovered_survivors :=
  (missionInv_reachB h (init_missionInv w sp r delay ad init)).1

/-- Witness for C3 at a mission state with a rescued survivor. -/
theorem C3_rescued_subset_witness :
    (0, 4) ∈ wMC5.rescued_survivors ∧
      ((0, 4) ∈ wMC5.known_survivors ∨ (0, 4) ∈ wMC5.discovered_survivors) :=
  ⟨by decide,
    C3_rescued_subset wGrid (0, 0) 2 5 false [(0, 4)] wMC5 wMC5_reachB (0, 4)
      (by decide)⟩

/-- Claim C8: is_mission_complete returns true exactly when the number of
rescued targets reaches the size of known ∪ discovered, and on reachable
mission states this happens exactly at equality. -/
theorem C8_mission_complete (w : Map) (sp : Coord) (r delay : ℕ) (ad : Bool)
    (init : List Coord) (mc : MissionCoordinator)
    (h : ReachB ((mkCoordinator w sp r delay ad).init_mission init) mc) :
    (mc.is_mission_complete = true ↔
      mc.rescued_survivors.length ≥
        (setUnion mc.known_survivors mc.discovered_survivors).length) ∧
    (mc.is_mission_complete = true ↔
      mc.rescued_survivors.length =
        (setUnion mc.known_survivors mc.discovered_survivors).length) := by
  have hiff : mc.is_mission_complete = true ↔
      mc.rescued_survivors.length ≥
        (setUnion mc.known_survivors mc.discovered_survivors).length := by
    rw [MissionCoordinator.is_mission_complete]
    exact decide_eq_true_iff
  have hsub : mc.rescued_survivors ⊆
      setUnion mc.known_survivors mc.discovered_survivors := by
    intro c hc
    exact mem_setUnion.mpr
      ((missionInv_reachB h (init_missionInv w sp r delay ad init)).1 c hc)
  have hwf : WellFormed mc :=
    reachA_wf (reachB_reachA h)
      (opA_wf (OpA.init_mission _ init) (mkCoordinator_wf w sp r delay ad))
  have hle : mc.rescued_survivors.length ≤
      (setUnion mc.known_survivors mc.discovered_survivors).length :=
    (List.Nodup.subperm hwf.2.2.2.2 hsub).length_le
  refine ⟨hiff, hiff.trans ⟨fun hge => Nat.le_antisymm hle hge, fun he => he.ge⟩⟩

/-- Witness for C8 at the completed witness mission. -/
theorem C8_mission_complete_witness :
    wMC5.is_mission_complete = true ∧
      wMC5.rescued_survivors.length =
        (setUnion wMC5.known_survivors wMC5.discovered_survivors).length :=
  ⟨by decide,
    ((C8_mission_complete wGrid (0, 0) 2 5 false [(0, 4)] wMC5 wMC5_reachB).2).mp
      (by decide)⟩

/-! Drone movement accounting (Drone.move_step). -/

/-- Sum of the Euclidean distances between consecutive distinct positions
along a run of consumed waypoints, starting from a given position. -/
def distAlong : Coord → List Coord → ℚ
  | _, [] => 0
  | p, w :: ws => (if p ≠ w then euclidDist p w else 0) + distAlong w ws

theorem consumeLoop_spec (fuel : ℕ) :
    ∀ d : Drone, 0 ≤ d.path_progress →
    d.path.length - d.current_waypoint_idx ≤ fuel →
    (Drone.consumeLoop fuel d).path_progress =
      d.path_progress -
        (min (⌊d.path_progress⌋.toNat)
          (d.path.length - d.current_waypoint_idx) : ℕ) ∧
    (Drone.consumeLoop fuel d).current_waypoint_idx =
      d.current_waypoint_idx +
        min (⌊d.path_progress⌋.toNat) (d.path.length - d.current_waypoint_idx) ∧
    (Drone.consumeLoop fuel d).pos =
      (if min (⌊d.path_progress⌋.toNat) (d.path.length - d.current_waypoint_idx) = 0
        then d.pos
        else d.path.getD (d.current_waypoint_idx +
          min (⌊d.path_progress⌋.toNat) (d.path.length - d.current_waypoint_idx) - 1)
          d.pos) ∧
    (Drone.consumeLoop fuel d).total_distance_traveled =
      d.total_distance_traveled + distAlong d.pos
        ((d.path.drop d.current_waypoint_idx).take
          (min (⌊d.path_progress⌋.toNat) (d.path.length - d.current_waypoint_idx))) := by
  induction fuel with
  | zero =>
    intro d h0 hfuel
    have hk : min (⌊d.path_progress⌋.toNat) (d.path.length - d.current_waypoint_idx) = 0 := by
      omega
    rw [Drone.consumeLoop, hk]
    simp [distAlong]
  | succ n ih =>
    intro d h0 hfuel
    rw [Drone.consumeLoop]
    by_cases hc : d.path_progress ≥ 1 ∧ d.current_waypoint_idx < d.path.length
    · rw [if_pos hc]
      obtain ⟨hp, hi⟩ := hc
      have hfl1 : (1 : ℤ) ≤ ⌊d.path_progress⌋ := Int.le_floor.mpr (by exact_mod_cast hp)
      have hflsub : ⌊d.path_progress - 1⌋ = ⌊d.path_progress⌋ - 1 := by
        have := Int.floor_sub_int d.path_progress 1
        simpa using this
      have hlen0 : 0 < d.path.length := Nat.lt_of_le_of_lt (Nat.zero_le _) hi
      have hK1 : 1 ≤ min (⌊d.path_progress⌋.toNat)
          (d.path.length - d.current_waypoint_idx) := by
        omega
      have hidx : d.current_waypoint_idx < d.path.length := hi
      have hnp : d.path.getD d.current_waypoint_idx d.pos =
          d.path[d.current_waypoint_idx] := List.getD_eq_getElem _ _ hidx
      have h02 : (0 : ℚ) ≤ d.path_progress - 1 := by linarith
      have hrec := ih
        { d with
          path_progress := d.path_progress - 1
          pos := d.path.getD d.current_waypoint_idx d.pos
          current_waypoint_idx := d.current_waypoint_idx + 1
          total_distance_traveled :=
            if d.pos ≠ d.path.getD d.current_waypoint_idx d.pos then
              d.total_distance_traveled +
                euclidDist d.pos (d.path.getD d.current_waypoint_idx d.pos)
            else d.total_distance_traveled }
        h02 (by simpa using Nat.sub_le_of_le_add (by omega))
      simp only at hrec
      rw [hflsub] at hrec
      obtain ⟨e1, e2, e3, e4⟩ := hrec
      have hK2 : min ((⌊d.path_progress⌋ - 1).toNat)
          (d.path.length - (d.current_waypoint_idx + 1)) =
          min (⌊d.path_progress⌋.toNat)
            (d.path.length - d.current_waypoint_idx) - 1 := by
        omega
      rw [hK2] at e1 e2 e3 e4
      refine ⟨?_, ?_, ?_, ?_⟩
      · rw [e1]
        have : ((min (⌊d.path_progress⌋.toNat)
            (d.path.length - d.current_waypoint_idx) - 1 : ℕ) : ℚ) =
            (min (⌊d.path_progress⌋.toNat)
              (d.path.length - d.current_waypoint_idx) : ℕ) - 1 := by
          push_cast [Nat.cast_sub hK1]
          ring
        rw [this]
        ring
      · rw [e2]
        omega
      · rw [e3]
        by_cases hK : min (⌊d.path_progress⌋.toNat)
            (d.path.length - d.current_waypoint_idx) = 1
        · rw [hK]
          simp
        · have hKgt : 2 ≤ min (⌊d.path_progress⌋.toNat)
              (d.path.length - d.current_waypoint_idx) := by omega
          have hne1 : ¬ (min (⌊d.path_progress⌋.toNat)
              (d.path.length - d.current_waypoint_idx) - 1 = 0) := by omega
          have hne2 : ¬ (min (⌊d.path_progress⌋.toNat)
              (d.path.length - d.current_waypoint_idx) = 0) := by omega
          rw [if_neg hne1, if_neg hne2]
          have hlt : d.current_waypoint_idx +
              min (⌊d.path_progress⌋.toNat) (d.path.length - d.current_waypoint_idx)
              - 1 < d.path.length := by omega
          have hidxeq : d.current_waypoint_idx + 1 +
              (min (⌊d.path_progress⌋.toNat) (d.path.length - d.current_waypoint_idx)
                - 1) - 1 = d.current_waypoint_idx +
              min (⌊d.path_progress⌋.toNat) (d.path.length - d.current_waypoint_idx)
              - 1 := by omega
          rw [hidxeq, List.getD_eq_getElem _ _ hlt, List.getD_eq_getElem _ _ hlt]
      · rw [e4]
        have hdrop : d.path.drop d.current_waypoint_idx =
            d.path[d.current_waypoint_idx] :: d.path.drop (d.current_waypoint_idx + 1) :=
          List.drop_eq_getElem_cons hidx
        have hKsucc : min (⌊d.path_progress⌋.toNat)
            (d.path.length - d.current_waypoint_idx) =
            (min (⌊d.path_progress⌋.toNat)
              (d.path.length - d.current_waypoint_idx) - 1) + 1 := by omega
        have htake : (d.path.drop d.current_waypoint_idx).take
            (min (⌊d.path_progress⌋.toNat) (d.path.length - d.current_waypoint_idx)) =
            d.path[d.current_waypoint_idx] ::
              (d.path.drop (d.current_waypoint_idx + 1)).take
                (min (⌊d.path_progress⌋.toNat)
                  (d.path.length - d.current_waypoint_idx) - 1) := by
          rw [hdrop]
          conv_lhs => rw [hKsucc, List.take_succ_cons]
        rw [htake, distAlong, hnp]
        split
        · ring
        · ring
    · rw [if_neg hc]
      have hk : min (⌊d.path_progress⌋.toNat)
          (d.path.length - d.current_waypoint_idx) = 0 := by
        rcases not_and_or.mp hc with hc2 | hc2
        · have : d.path_progress < 1 := lt_of_not_ge hc2
          have : ⌊d.path_progress⌋ = 0 :=
            Int.floor_eq_zero_iff.mpr ⟨h0, this⟩
          omega
        · omega
      rw [hk]
      simp [distAlong]

/-- Claim C4 (amended): when the drone has no path or the path is exhausted,
move_step changes nothing (in particular the fractional progress is not
incremented) and returns the unchanged position; otherwise the call adds the
speed to the fractional progress and then consumes
min(floor(progress + speed), remaining waypoints) waypoints one at a time,
ending at the last consumed waypoint, adding the Euclidean length of every
consumed displacement to the cumulative distance, and returning the
resulting position.  With speed 3.0 on a freshly assigned 5-coordinate path
starting at the drone's own position this crosses 3 waypoints in one call. -/
theorem C4_move_step_accounting (d : Drone) (h0 : 0 ≤ d.path_progress)
    (hs : 0 ≤ d.speed) :
    (d.path = [] ∨ d.current_waypoint_idx ≥ d.path.length →
      d.move_step = (d, d.pos)) ∧
    (d.path ≠ [] → d.current_waypoint_idx < d.path.length →
      (d.move_step).1.path_progress =
        d.path_progress + d.speed -
          (min (⌊d.path_progress + d.speed⌋.toNat)
            (d.path.length - d.current_waypoint_idx) : ℕ) ∧
      (d.move_step).1.current_waypoint_idx =
        d.current_waypoint_idx +
          min (⌊d.path_progress + d.speed⌋.toNat)
            (d.path.length - d.current_waypoint_idx) ∧
      (d.move_step).1.pos =
        (if min (⌊d.path_progress + d.speed⌋.toNat)
            (d.path.length - d.current_waypoint_idx) = 0 then d.pos
          else d.path.getD (d.current_waypoint_idx +
            min (⌊d.path_progress + d.speed⌋.toNat)
              (d.path.length - d.current_waypoint_idx) - 1) d.pos) ∧
      (d.move_step).1.total_distance_traveled =
        d.total_distance_traveled + distAlong d.pos
          ((d.path.drop d.current_waypoint_idx).take
            (min (⌊d.path_progress + d.speed⌋.toNat)
              (d.path.length - d.current_waypoint_idx))) ∧
      (d.move_step).2 = (d.move_step).1.pos) := by
  constructor
  · intro h
    rw [Drone.move_step, if_pos h]
  · intro hne hlt
    have hc : ¬ (d.path = [] ∨ d.current_waypoint_idx ≥ d.path.length) := by
      push_neg
      exact ⟨hne, hlt⟩
    have h02 : (0 : ℚ) ≤ d.path_progress + d.speed := by linarith
    have hspec := consumeLoop_spec d.path.length
      { d with path_progress := d.path_progress + d.speed } h02 (by simp)
    simp only at hspec
    rw [Drone.move_step, if_neg hc]
    exact ⟨hspec.1, hspec.2.1, hspec.2.2.1, hspec.2.2.2, rfl⟩

/-- Counterexample to claim C4 as stated: a move_step call on a drone with
no path leaves the fractional progress unchanged instead of increasing it
by the speed. -/
theorem C4_counterexample :
    ((mkDrone 0 (0, 0) 1).move_step).1.path_progress ≠
      (mkDrone 0 (0, 0) 1).path_progress + (mkDrone 0 (0, 0) 1).speed := by
  decide

/-- Witness for C4: the speed-3 drone on a freshly assigned 5-coordinate
path starting at its own position is 3 waypoints ahead (path index 3,
waypoint counter 4) after one call. -/
theorem C4_move_step_accounting_witness :
    ((mkDrone 0 (0, 0) 3).assign_target (0, 4)
      [(0, 0), (0, 1), (0, 2), (0, 3), (0, 4)]).move_step.1.pos = (0, 3) ∧
    ((mkDrone 0 (0, 0) 3).assign_target (0, 4)
      [(0, 0), (0, 1), (0, 2), (0, 3), (0, 4)]).move_step.1.current_waypoint_idx
      = 4 := by
  have h := (C4_move_step_accounting
    ((mkDrone 0 (0, 0) 3).assign_target (0, 4)
      [(0, 0), (0, 1), (0, 2), (0, 3), (0, 4)])
    (by decide) (by decide)).2 (by decide) (by decide)
  exact ⟨h.2.2.1.trans (by decide), h.2.1.trans (by decide)⟩

/-! Detection (MissionCoordinator.check_detection). -/

/-- The condition under which check_detection adds a scanned cell, relative
to a discovered set. -/
def DetCond (mc : MissionCoordinator) (dpos : Coord) (disc : List Coord)
    (c : Coord) : Prop :=
  (c.1 - dpos.1) ^ 2 + (c.2 - dpos.2) ^ 2 ≤ (mc.detection_radius : ℤ) ^ 2 ∧
  c ∉ mc.known_survivors ∧ c ∉ disc ∧ c ∉ mc.rescued_survivors ∧
  mc.world.cellAt c.1 c.2 = CellType.SURVIVOR

theorem detectStep_cases (mc : MissionCoordinator) (dpos : Coord)
    (st : List Coord × List Coord) (c : Coord) :
    (mc.detectStep dpos st c = st ∧ ¬ DetCond mc dpos st.1 c) ∨
    (mc.detectStep dpos st c = (st.1 ++ [c], st.2 ++ [c]) ∧
      DetCond mc dpos st.1 c) := by
  rw [MissionCoordinator.detectStep]
  by_cases h1 : (c.1 - dpos.1) ^ 2 + (c.2 - dpos.2) ^ 2 >
      (mc.detection_radius : ℤ) ^ 2
  · rw [if_pos h1]
    exact Or.inl ⟨rfl, fun hc => absurd hc.1 (not_le.mpr h1)⟩
  · rw [if_neg h1]
    by_cases h2 : c ∉ mc.known_survivors ∧ c ∉ st.1 ∧ c ∉ mc.rescued_survivors
    · rw [if_pos h2]
      by_cases h3 : mc.world.cellAt c.1 c.2 = CellType.SURVIVOR
      · rw [if_pos h3]
        exact Or.inr ⟨rfl, le_of_not_lt h1, h2.1, h2.2.1, h2.2.2, h3⟩
      · rw [if_neg h3]
        exact Or.inl ⟨rfl, fun hc => h3 hc.2.2.2.2⟩
    · rw [if_neg h2]
      refine Or.inl ⟨rfl, fun hc => h2 ⟨hc.2.1, hc.2.2.1, hc.2.2.2.1⟩⟩

theorem detect_fold_mem (mc : MissionCoordinator) (dpos : Coord) :
    ∀ (cells : List Coord), cells.Nodup → ∀ (disc acc : List Coord) (p : Coord),
    (p ∈ (cells.foldl (mc.detectStep dpos) (disc, acc)).2 ↔
      p ∈ acc ∨ (p ∈ cells ∧ DetCond mc dpos disc p)) ∧
    (p ∈ (cells.foldl (mc.detectStep dpos) (disc, acc)).1 ↔
      p ∈ disc ∨ (p ∈ cells ∧ DetCond mc dpos disc p)) := by
  intro cells
  induction cells with
  | nil =>
    intro _ disc acc p
    simp
  | cons c cells ih =>
    intro hn disc acc p
    have hcn : c ∉ cells := (List.nodup_cons.mp hn).1
    have hn2 : cells.Nodup := (List.nodup_cons.mp hn).2
    rw [List.foldl_cons]
    rcases detectStep_cases mc dpos (disc, acc) c with ⟨heq, hcond⟩ | ⟨heq, hcond⟩
    · rw [heq]
      have hih := ih hn2 disc acc p
      constructor
      · rw [hih.1]
        constructor
        · rintro (h | ⟨h1, h2⟩)
          · exact Or.inl h
          · exact Or.inr ⟨List.mem_cons_of_mem _ h1, h2⟩
        · rintro (h | ⟨h1, h2⟩)
          · exact Or.inl h
          · rcases List.mem_cons.mp h1 with rfl | h3
            · exact absurd h2 hcond
            · exact Or.inr ⟨h3, h2⟩
      · rw [hih.2]
        constructor
        · rintro (h | ⟨h1, h2⟩)
          · exact Or.inl h
          · exact Or.inr ⟨List.mem_cons_of_mem _ h1, h2⟩
        · rintro (h | ⟨h1, h2⟩)
          · exact Or.inl h
          · rcases List.mem_cons.mp h1 with rfl | h3
            · exact absurd h2 hcond
            · exact Or.inr ⟨h3, h2⟩
    · rw [heq]
      have hih := ih hn2 (disc ++ [c]) (acc ++ [c]) p
      have hdc : ∀ q : Coord, q ≠ c →
          (DetCond mc dpos (disc ++ [c]) q ↔ DetCond mc dpos disc q) := by
        intro q hq
        unfold DetCond
        constructor
        · rintro ⟨a1, a2, a3, a4, a5⟩
          exact ⟨a1, a2, fun hm => a3 (List.mem_append.mpr (Or.inl hm)), a4, a5⟩
        · rintro ⟨a1, a2, a3, a4, a5⟩
          refine ⟨a1, a2, ?_, a4, a5⟩
          intro hm
          rcases List.mem_append.mp hm with hm2 | hm2
          · exact a3 hm2
          · exact hq (by simpa using hm2)
      by_cases hpc : p = c
      · subst hpc
        constructor
        · rw [hih.1]
          constructor
          · intro _
            exact Or.inr ⟨List.mem_cons_self _ _, hcond⟩
          · intro _
            exact Or.inl (List.mem_append.mpr (Or.inr (by simp)))
        · rw [hih.2]
          constructor
          · intro _
            exact Or.inr ⟨List.mem_cons_self _ _, hcond⟩
          · intro _
            exact Or.inl (List.mem_append.mpr (Or.inr (by simp)))
      · constructor
        · rw [hih.1]
          constructor
          · rintro (h | ⟨h1, h2⟩)
            · rcases List.mem_append.mp h with h3 | h3
              · exact Or.inl h3
              · exact absurd (by simpa using h3) hpc
            · exact Or.inr ⟨List.mem_cons_of_mem _ h1, (hdc p hpc).mp h2⟩
          · rintro (h | ⟨h1, h2⟩)
            · exact Or.inl (List.mem_append.mpr (Or.inl h))
            · rcases List.mem_cons.mp h1 with rfl | h3
              · exact absurd rfl hpc
              · exact Or.inr ⟨h3, (hdc p hpc).mpr h2⟩
        · rw [hih.2]
          constructor
          · rintro (h | ⟨h1, h2⟩)
            · rcases List.mem_append.mp h with h3 | h3
              · exact Or.inl h3
              · exact absurd (by simpa using h3) hpc
            · exact Or.inr ⟨List.mem_cons_of_mem _ h1, (hdc p hpc).mp h2⟩
          · rintro (h | ⟨h1, h2⟩)
            · exact Or.inl (List.mem_append.mpr (Or.inl h))
            · rcases List.mem_cons.mp h1 with rfl | h3
              · exact absurd rfl hpc
              · exact Or.inr ⟨h3, (hdc p hpc).mpr h2⟩

theorem mem_intRange {a b k : ℤ} : k ∈ intRange a b ↔ a ≤ k ∧ k < b := by
  simp only [intRange, List.mem_map, List.mem_range]
  constructor
  · rintro ⟨j, hj, rfl⟩
    omega
  · intro h
    exact ⟨(k - a).toNat, by omega, by omega⟩

theorem intRange_nodup (a b : ℤ) : (intRange a b).Nodup := by
  refine List.Nodup.map ?_ (List.nodup_range _)
  intro j1 j2 h
  simp only at h
  omega

theorem mem_detectCells {mc : MissionCoordinator} {dpos c : Coord} :
    c ∈ mc.detectCells dpos ↔
      (max 0 (dpos.1 - (mc.detection_radius : ℤ)) ≤ c.1 ∧
        c.1 < min (mc.world.height : ℤ) (dpos.1 + mc.detection_radius + 1)) ∧
      (max 0 (dpos.2 - (mc.detection_radius : ℤ)) ≤ c.2 ∧
        c.2 < min (mc.world.width : ℤ) (dpos.2 + mc.detection_radius + 1)) := by
  unfold MissionCoordinator.detectCells
  constructor
  · intro h
    obtain ⟨y, hy, hc⟩ := List.mem_flatMap.mp h
    obtain ⟨x, hx, rfl⟩ := List.mem_map.mp hc
    exact ⟨by simpa using mem_intRange.mp hy, by simpa using mem_intRange.mp hx⟩
  · intro ⟨h1, h2⟩
    refine List.mem_flatMap.mpr ⟨c.1, mem_intRange.mpr h1, ?_⟩
    exact List.mem_map.mpr ⟨c.2, mem_intRange.mpr h2, rfl⟩

theorem detectCells_nodup (mc : MissionCoordinator) (dpos : Coord) :
    (mc.detectCells dpos).Nodup := by
  unfold MissionCoordinator.detectCells
  refine List.nodup_flatMap.mpr ⟨?_, ?_⟩
  · intro y _
    refine List.Nodup.map ?_ (intRange_nodup _ _)
    intro x1 x2 h
    exact congrArg Prod.snd h
  · refine List.Pairwise.imp ?_ (intRange_nodup _ _)
    intro y1 y2 hne c h1 h2
    obtain ⟨x1, _, rfl⟩ := List.mem_map.mp h1
    obtain ⟨x2, _, he⟩ := List.mem_map.mp h2
    exact hne (congrArg Prod.fst he).symm

theorem abs_bounds_of_sq_le {a r : ℤ} (hr : 0 ≤ r) (h : a ^ 2 ≤ r ^ 2) :
    -r ≤ a ∧ a ≤ r := by
  constructor <;> nlinarith

/-- Claim C5: check_detection returns exactly the grid cells within
Euclidean distance detection_radius of the drone position (distance
compared exactly, not just the bounding box) that currently hold a SURVIVOR
cell and are in none of known, discovered, rescued; exactly these are
appended to the discovered set. -/
theorem C5_check_detection (mc : MissionCoordinator) (d : Drone) :
    (∀ p : Coord, p ∈ (mc.check_detection d).2 ↔
      (0 ≤ p.1 ∧ p.1 < (mc.world.height : ℤ) ∧
        0 ≤ p.2 ∧ p.2 < (mc.world.width : ℤ)) ∧
      (p.1 - d.pos.1) ^ 2 + (p.2 - d.pos.2) ^ 2 ≤ (mc.detection_radius : ℤ) ^ 2 ∧
      mc.world.cellAt p.1 p.2 = CellType.SURVIVOR ∧
      p ∉ mc.known_survivors ∧ p ∉ mc.discovered_survivors ∧
      p ∉ mc.rescued_survivors) ∧
    (∀ p : Coord, p ∈ (mc.check_detection d).1.discovered_survivors ↔
      p ∈ mc.discovered_survivors ∨ p ∈ (mc.check_detection d).2) := by
  have hfold := detect_fold_mem mc d.pos (mc.detectCells d.pos)
    (detectCells_nodup mc d.pos) mc.discovered_survivors []
  have hmain : ∀ p : Coord, p ∈ (mc.check_detection d).2 ↔
      (0 ≤ p.1 ∧ p.1 < (mc.world.height : ℤ) ∧
        0 ≤ p.2 ∧ p.2 < (mc.world.width : ℤ)) ∧
      (p.1 - d.pos.1) ^ 2 + (p.2 - d.pos.2) ^ 2 ≤ (mc.detection_radius : ℤ) ^ 2 ∧
      mc.world.cellAt p.1 p.2 = CellType.SURVIVOR ∧
      p ∉ mc.known_survivors ∧ p ∉ mc.discovered_survivors ∧
      p ∉ mc.rescued_survivors := by
    intro p
    have h2 : p ∈ (mc.check_detection d).2 ↔
        p ∈ ([] : List Coord) ∨
          (p ∈ mc.detectCells d.pos ∧
            DetCond mc d.pos mc.discovered_survivors p) := (hfold p).1
    rw [h2]
    simp only [List.not_mem_nil, false_or]
    unfold DetCond
    constructor
    · rintro ⟨hcell, hdist, hk, hd2, hr2, hs⟩
      have hbox := mem_detectCells.mp hcell
      exact ⟨⟨by omega, by omega, by omega, by omega⟩, hdist, hs, hk, hd2, hr2⟩
    · rintro ⟨⟨hy0, hyh, hx0, hxw⟩, hdist, hs, hk, hd2, hr2⟩
      have hsq1 : (p.1 - d.pos.1) ^ 2 ≤ (mc.detection_radius : ℤ) ^ 2 := by
        nlinarith [sq_nonneg (p.2 - d.pos.2)]
      have hsq2 : (p.2 - d.pos.2) ^ 2 ≤ (mc.detection_radius : ℤ) ^ 2 := by
        nlinarith [sq_nonneg (p.1 - d.pos.1)]
      have hb1 := abs_bounds_of_sq_le (by positivity) hsq1
      have hb2 := abs_bounds_of_sq_le (by positivity) hsq2
      refine ⟨mem_detectCells.mpr ⟨⟨?_, ?_⟩, ⟨?_, ?_⟩⟩, hdist, hk, hd2, hr2, hs⟩
      · omega
      · omega
      · omega
      · omega
  refine ⟨hmain, ?_⟩
  intro p
  have h1 : p ∈ (mc.check_detection d).1.discovered_survivors ↔
      p ∈ mc.discovered_survivors ∨
        (p ∈ mc.detectCells d.pos ∧
          DetCond mc d.pos mc.discovered_survivors p) := (hfold p).2
  have h2 : p ∈ (mc.check_detection d).2 ↔
      p ∈ ([] : List Coord) ∨
        (p ∈ mc.detectCells d.pos ∧
          DetCond mc d.pos mc.discovered_survivors p) := (hfold p).1
  rw [h1, h2]
  simp

/-- Witness for C5: on the witness mission state the drone at (0, 0) with
radius 2 detects nothing (the only survivor cell, if any, is out of range),
matching the characterization at the probe coordinate (0, 4). -/
theorem C5_check_detection_witness :
    ((wMC0.init_mission [(0, 4)]).check_detection (mkDrone 0 (0, 0) 1)).2 =
      [] ∧ ¬ ((0, 4) : Coord) ∈
      ((wMC0.init_mission [(0, 4)]).check_detection (mkDrone 0 (0, 0) 1)).2 := by
  refine ⟨by decide, ?_⟩
  rw [(C5_check_detection (wMC0.init_mission [(0, 4)]) (mkDrone 0 (0, 0) 1)).1
    ((0, 4) : Coord)]
  decide

/-- Claim C9: find_path is a pure function of (grid, start, goal, diagonal
flag) — two invocations agree — and the frontier comparison hLtB on
(f-score, g-score, coordinate) triples is a strict total order, so heap
tie-breaking is fully determined by the inputs. -/
theorem C9_find_path_deterministic :
    (∀ (a : AStar) (s g : Coord), a.find_path s g = a.find_path s g) ∧
    (∀ e1 e2 : HElem, hLtB e1 e2 = true ∨ hLtB e2 e1 = true ∨ e1 = e2) ∧
    (∀ e1 e2 : HElem, hLtB e1 e2 = true → hLtB e2 e1 = true → False) := by
  refine ⟨fun a s g => rfl, ?_, ?_⟩
  · intro e1 e2
    obtain ⟨f1, g1, y1, x1⟩ := e1
    obtain ⟨f2, g2, y2, x2⟩ := e2
    simp only [hLtB, coordLtB, Bool.or_eq_true, Bool.and_eq_true,
      decide_eq_true_eq, Prod.mk.injEq]
    rcases lt_trichotomy f1 f2 with hf | hf | hf
    · exact Or.inl (Or.inl hf)
    · subst hf
      rcases lt_trichotomy g1 g2 with hg | hg | hg
      · exact Or.inl (Or.inr ⟨rfl, Or.inl hg⟩)
      · subst hg
        rcases lt_trichotomy y1 y2 with hy | hy | hy
        · exact Or.inl (Or.inr ⟨rfl, Or.inr ⟨rfl, Or.inl hy⟩⟩)
        · subst hy
          rcases lt_trichotomy x1 x2 with hx | hx | hx
          · exact Or.inl (Or.inr ⟨rfl, Or.inr ⟨rfl, Or.inr ⟨rfl, hx⟩⟩⟩)
          · subst hx
            exact Or.inr (Or.inr ⟨rfl, rfl, rfl, rfl⟩)
          · exact Or.inr (Or.inl (Or.inr ⟨rfl, Or.inr ⟨rfl, Or.inr ⟨rfl, hx⟩⟩⟩))
        · exact Or.inr (Or.inl (Or.inr ⟨rfl, Or.inr ⟨rfl, Or.inl hy⟩⟩))
      · exact Or.inr (Or.inl (Or.inr ⟨rfl, Or.inl hg⟩))
    · exact Or.inr (Or.inl (Or.inl hf))
  · intro e1 e2 h1 h2
    obtain ⟨f1, g1, y1, x1⟩ := e1
    obtain ⟨f2, g2, y2, x2⟩ := e2
    simp only [hLtB, coordLtB, Bool.or_eq_true, Bool.and_eq_true,
      decide_eq_true_eq] at h1 h2
    rcases h1 with h1 | ⟨hf1, h1 | ⟨hg1, h1 | ⟨hy1, h1⟩⟩⟩ <;>
      rcases h2 with h2 | ⟨hf2, h2 | ⟨hg2, h2 | ⟨hy2, h2⟩⟩⟩ <;>
      first
        | linarith
        | omega

/-- Witness for C9 at concrete inputs. -/
theorem C9_find_path_deterministic_witness :
    wAStar.find_path (0, 0) (0, 4) = wAStar.find_path (0, 0) (0, 4) ∧
    (hLtB (1, 1, (0, 0)) (2, 1, (0, 1)) = true ∨
      hLtB (2, 1, (0, 1)) (1, 1, (0, 0)) = true ∨
      ((1 : ℚ), (1 : ℚ), ((0 : ℤ), (0 : ℤ))) = (2, 1, (0, 1))) :=
  ⟨C9_find_path_deterministic.1 wAStar (0, 0) (0, 4),
    C9_find_path_deterministic.2.1 (1, 1, (0, 0)) (2, 1, (0, 1))⟩

/-- Claim C7: find_path returns none as soon as either endpoint is out of
bounds or not walkable (before any search state is built), frontier
exhaustion also yields none rather than an error, and both the assignment
scan and the reassignment scan skip a candidate whose find_path result is
none and continue with the remaining candidates. -/
theorem C7_invalid_endpoints :
    (∀ (a : AStar) (s g : Coord),
      ¬ (a.world.in_bounds s.1 s.2 = true ∧ a.world.in_bounds g.1 g.2 = true ∧
        a.world.is_walkable s.1 s.2 = true ∧ a.world.is_walkable g.1 g.2 = true) →
      a.find_path s g = none) ∧
    (∀ (a : AStar) (g : Coord) (fuel : ℕ) (st : AStar.AState),
      st.open_set = [] → a.loop g fuel st = none) ∧
    (∀ (a : AStar) (asg : List (ℕ × Coord)) (d : Drone) (u : Coord)
      (rest : List Coord) (acc : Option (Coord × List Coord × ℚ)),
      a.find_path d.pos u = none →
      MissionCoordinator.bestFor a asg d (u :: rest) acc =
        MissionCoordinator.bestFor a asg d rest acc) ∧
    (∀ (a : AStar) (pos : Coord) (speed cc : ℚ) (u : Coord) (rest : List Coord),
      a.find_path pos u = none →
      MissionCoordinator.findCandidate a pos speed cc (u :: rest) =
        MissionCoordinator.findCandidate a pos speed cc rest) := by
  refine ⟨?_, ?_, ?_, ?_⟩
  · intro a s g h
    rw [AStar.find_path]
    by_cases h1 : a.world.in_bounds s.1 s.2 = true ∧ a.world.in_bounds g.1 g.2 = true
    · rw [if_neg (not_not_intro h1)]
      have h2 : ¬ (a.world.is_walkable s.1 s.2 = true ∧
          a.world.is_walkable g.1 g.2 = true) := by
        intro h2
        exact h ⟨h1.1, h1.2, h2.1, h2.2⟩
      rw [if_pos h2]
    · rw [if_pos h1]
  · intro a g fuel st hopen
    cases fuel with
    | zero => rw [AStar.loop]
    | succ n =>
      rw [AStar.loop, hopen]
      rfl
  · intro a asg d u rest acc hfp
    rw [MissionCoordinator.bestFor]
    by_cases hs : u ∈ dvalues asg
    · rw [if_pos hs]
    · rw [if_neg hs, hfp]
  · intro a pos speed cc u rest hfp
    rw [MissionCoordinator.findCandidate, hfp]

/-- Witness for C7: an out-of-bounds start yields none, the empty frontier
yields none, and none-result candidates are skipped in both scans. -/
theorem C7_invalid_endpoints_witness :
    wAStar.find_path (-1, 0) (0, 0) = none ∧
    MissionCoordinator.findCandidate wAStar (0, 0) 1 10 [(9, 9), (0, 1)] =
      MissionCoordinator.findCandidate wAStar (0, 0) 1 10 [(0, 1)] := by
  constructor
  · exact C7_invalid_endpoints.1 wAStar (-1, 0) (0, 0) (by decide)
  · exact C7_invalid_endpoints.2.2.2 wAStar (0, 0) 1 10 (9, 9) [(0, 1)] (by decide)

/-! Reassignment policy (MissionCoordinator.reassign_drones). -/

theorem findCandidate_isSome (a : AStar) (pos : Coord) (speed cc : ℚ) :
    ∀ l : List Coord,
      (MissionCoordinator.findCandidate a pos speed cc l).isSome = true ↔
        ∃ u ∈ l, ∃ pu cu, a.find_path pos u = some (pu, cu) ∧
          cu / speed < cc * 0.5 := by
  intro l
  induction l with
  | nil => simp [MissionCoordinator.findCandidate]
  | cons u0 rest ih =>
    rw [MissionCoordinator.findCandidate]
    cases hfp : a.find_path pos u0 with
    | none =>
      rw [ih]
      constructor
      · rintro ⟨u, hu, pu, cu, h1, h2⟩
        exact ⟨u, List.mem_cons_of_mem _ hu, pu, cu, h1, h2⟩
      · rintro ⟨u, hu, pu, cu, h1, h2⟩
        rcases List.mem_cons.mp hu with rfl | hu2
        · rw [hfp] at h1
          cases h1
        · exact ⟨u, hu2, pu, cu, h1, h2⟩
    | some pc =>
      obtain ⟨pu0, cu0⟩ := pc
      dsimp only
      by_cases hlt : cu0 / speed < cc * 0.5
      · rw [if_pos hlt]
        simp only [Option.isSome_some, true_iff]
        exact ⟨u0, List.mem_cons_self _ _, pu0, cu0, hfp, hlt⟩
      · rw [if_neg hlt, ih]
        constructor
        · rintro ⟨u, hu, pu, cu, h1, h2⟩
          exact ⟨u, List.mem_cons_of_mem _ hu, pu, cu, h1, h2⟩
        · rintro ⟨u, hu, pu, cu, h1, h2⟩
          rcases List.mem_cons.mp hu with rfl | hu2
          · rw [hfp] at h1
            cases h1
            exact absurd h2 hlt
          · exact ⟨u, hu2, pu, cu, h1, h2⟩

theorem findCandidate_first (a : AStar) (pos : Coord) (speed cc : ℚ) :
    ∀ (l : List Coord) (u : Coord) (pu : List Coord),
      MissionCoordinator.findCandidate a pos speed cc l = some (u, pu) →
      ∃ l1 l2, l = l1 ++ u :: l2 ∧
        (∃ cu, a.find_path pos u = some (pu, cu) ∧ cu / speed < cc * 0.5) ∧
        ∀ v ∈ l1, ∀ pv cv, a.find_path pos v = some (pv, cv) →
          ¬ (cv / speed < cc * 0.5) := by
  intro l
  induction l with
  | nil => intro u pu h; simp [MissionCoordinator.findCandidate] at h
  | cons u0 rest ih =>
    intro u pu h
    rw [MissionCoordinator.findCandidate] at h
    cases hfp : a.find_path pos u0 with
    | none =>
      rw [hfp] at h
      obtain ⟨l1, l2, he, hg, hbad⟩ := ih u pu h
      refine ⟨u0 :: l1, l2, by rw [he]; rfl, hg, ?_⟩
      intro v hv pv cv hfpv
      rcases List.mem_cons.mp hv with rfl | hv2
      · rw [hfp] at hfpv
        cases hfpv
      · exact hbad v hv2 pv cv hfpv
    | some pc =>
      obtain ⟨pu0, cu0⟩ := pc
      rw [hfp] at h
      dsimp only at h
      by_cases hlt : cu0 / speed < cc * 0.5
      · rw [if_pos hlt] at h
        cases h
        exact ⟨[], rest, rfl, ⟨cu0, hfp, hlt⟩, fun v hv => absurd hv (List.not_mem_nil v)⟩
      · rw [if_neg hlt] at h
        obtain ⟨l1, l2, he, hg, hbad⟩ := ih u pu h
        refine ⟨u0 :: l1, l2, by rw [he]; rfl, hg, ?_⟩
        intro v hv pv cv hfpv
        rcases List.mem_cons.mp hv with rfl | hv2
        · rw [hfp] at hfpv
          cases hfpv
          exact hlt
        · exact hbad v hv2 pv cv hfpv

/-- Claim C6: during a reassignment pass an agent is considered only with
an active, not-yet-reached target; given its current path cost, it abandons
that target exactly when some currently unassigned candidate has
path-cost/speed strictly below half the current cost; the committed
candidate is the first qualifying one in scan order (not a global optimum)
and is removed from the pass's remaining candidate pool. -/
theorem C6_reassignment_policy (a : AStar)
    (st : (List Drone × List (ℕ × Coord)) × List Coord) (i : ℕ) :
    ((st.1.1.getD i default).target = none →
      MissionCoordinator.reassignOne a st i = st) ∧
    (∀ t, (st.1.1.getD i default).target = some t →
      (st.1.1.getD i default).pos = t →
      MissionCoordinator.reassignOne a st i = st) ∧
    (∀ t pt ct, (st.1.1.getD i default).target = some t →
      (st.1.1.getD i default).pos ≠ t →
      a.find_path (st.1.1.getD i default).pos t = some (pt, ct) →
      ((MissionCoordinator.reassignOne a st i = st ↔
          MissionCoordinator.findCandidate a (st.1.1.getD i default).pos
            (st.1.1.getD i default).speed
            (ct / (st.1.1.getD i default).speed) st.2 = none) ∧
        ((MissionCoordinator.findCandidate a (st.1.1.getD i default).pos
            (st.1.1.getD i default).speed
            (ct / (st.1.1.getD i default).speed) st.2).isSome = true ↔
          ∃ u ∈ st.2, ∃ pu cu, a.find_path (st.1.1.getD i default).pos u =
            some (pu, cu) ∧
            cu / (st.1.1.getD i default).speed <
              ct / (st.1.1.getD i default).speed * 0.5) ∧
        (MissionCoordinator.findCandidate a (st.1.1.getD i default).pos
            (st.1.1.getD i default).speed
            (ct / (st.1.1.getD i default).speed) st.2 = none →
          MissionCoordinator.reassignOne a st i = st) ∧
        (∀ u pu, MissionCoordinator.findCandidate a (st.1.1.getD i default).pos
            (st.1.1.getD i default).speed
            (ct / (st.1.1.getD i default).speed) st.2 = some (u, pu) →
          MissionCoordinator.reassignOne a st i =
            ((st.1.1.set i ((st.1.1.getD i default).assign_target u pu),
              dinsert (ddel st.1.2 (st.1.1.getD i default).drone_id)
                (st.1.1.getD i default).drone_id u),
              st.2.erase u) ∧
          (∃ l1 l2, st.2 = l1 ++ u :: l2 ∧
            (∃ cu, a.find_path (st.1.1.getD i default).pos u = some (pu, cu) ∧
              cu / (st.1.1.getD i default).speed <
                ct / (st.1.1.getD i default).speed * 0.5) ∧
            ∀ v ∈ l1, ∀ pv cv,
              a.find_path (st.1.1.getD i default).pos v = some (pv, cv) →
              ¬ (cv / (st.1.1.getD i default).speed <
                ct / (st.1.1.getD i default).speed * 0.5))))) := by
  refine ⟨?_, ?_, ?_⟩
  · intro ht
    rw [MissionCoordinator.reassignOne, ht]
  · intro t ht hp
    rw [MissionCoordinator.reassignOne, ht]
    dsimp only
    rw [if_pos hp]
  · intro t pt ct ht hp hfp
    have hbody : ∀ r, MissionCoordinator.findCandidate a (st.1.1.getD i default).pos
        (st.1.1.getD i default).speed (ct / (st.1.1.getD i default).speed) st.2 = r →
        MissionCoordinator.reassignOne a st i =
          (match r with
            | none => st
            | some (u, pu) =>
              ((st.1.1.set i ((st.1.1.getD i default).assign_target u pu),
                dinsert (ddel st.1.2 (st.1.1.getD i default).drone_id)
                  (st.1.1.getD i default).drone_id u),
                st.2.erase u)) := by
      intro r hr
      rw [MissionCoordinator.reassignOne, ht]
      dsimp only
      rw [if_neg hp, hfp]
      dsimp only
      rw [hr]
    refine ⟨?_, findCandidate_isSome a _ _ _ st.2, ?_, ?_⟩
    · cases hfc : MissionCoordinator.findCandidate a (st.1.1.getD i default).pos
          (st.1.1.getD i default).speed (ct / (st.1.1.getD i default).speed) st.2 with
      | none => exact ⟨fun _ => rfl, fun _ => hbody none hfc⟩
      | some upu =>
        obtain ⟨u, pu⟩ := upu
        have heq := hbody (some (u, pu)) hfc
        constructor
        · intro hcontra
          have hu : u ∈ st.2 := findCandidate_mem a _ _ _ st.2 u pu hfc
          have hlen : (st.2.erase u).length = st.2.length := by
            have := congrArg (fun z => z.2.length) (heq.symm.trans hcontra)
            simpa using this
          rw [List.length_erase_of_mem hu] at hlen
          have hpos : 0 < st.2.length := List.length_pos.mpr
            (fun he => by rw [he] at hu; exact List.not_mem_nil u hu)
          omega
        · intro hnone
          exact Option.noConfusion hnone
    · intro hfc
      exact hbody none hfc
    · intro u pu hfc
      exact ⟨hbody (some (u, pu)) hfc, findCandidate_first a _ _ _ st.2 u pu hfc⟩

/-- Reassignment witness state: one drone en route to (0, 4), one cheap
unassigned survivor at (0, 1). -/
def wRSt : (List Drone × List (ℕ × Coord)) × List Coord :=
  (([(mkDrone 0 (0, 0) 1).assign_target (0, 4)
      [(0, 0), (0, 1), (0, 2), (0, 3), (0, 4)]],
    [(0, ((0, 4) : Coord))]),
    [((0, 1) : Coord)])

/-- Witness for C6: the drone heading to (0, 4) at cost 4 abandons it for
the first candidate (0, 1) at cost 1 < 4 * 0.5, which is removed from the
pass's candidate pool. -/
theorem C6_reassignment_policy_witness :
    (MissionCoordinator.reassignOne wAStar wRSt 0).2 = [] := by
  have h := (C6_reassignment_policy wAStar wRSt 0).2.2 (0, 4)
    [(0, 0), (0, 1), (0, 2), (0, 3), (0, 4)] 4 (by decide) (by decide) (by decide)
  have h2 := (h.2.2.2 (0, 1) [(0, 0), (0, 1)] (by decide)).1
  exact (congrArg Prod.snd h2).trans (by decide)

/-! Path validity of the A* search (AStar.find_path). -/

/-- A single orthogonal step. -/
def isOrthStep (p q : Coord) : Prop :=
  (q.1 - p.1, q.2 - p.2) ∈ AStar.orthDeltas

/-- A single diagonal step. -/
def isDiagStep (p q : Coord) : Prop :=
  (q.1 - p.1, q.2 - p.2) ∈ AStar.diagDeltas

/-- A valid move of the returned path: the destination is walkable, and the
step is orthogonal or, only with diagonal movement enabled, a diagonal step
whose two corner-adjacent orthogonal cells are both not obstacles. -/
def validMove (a : AStar) (p q : Coord) : Prop :=
  a.world.is_walkable q.1 q.2 = true ∧
  (isOrthStep p q ∨
    (a.allow_diagonal = true ∧ isDiagStep p q ∧
      a.world.cellAt q.1 p.2 ≠ CellType.OBSTACLE ∧
      a.world.cellAt p.1 q.2 ≠ CellType.OBSTACLE))

theorem in_bounds_iff {m : Map} {y x : ℤ} :
    m.in_bounds y x = true ↔
      0 ≤ y ∧ y < (m.height : ℤ) ∧ 0 ≤ x ∧ x < (m.width : ℤ) := by
  simp [Map.in_bounds]

theorem is_walkable_in_bounds {m : Map} {y x : ℤ}
    (h : m.is_walkable y x = true) : m.in_bounds y x = true := by
  rw [Map.is_walkable] at h
  by_cases hb : m.in_bounds y x = true
  · exact hb
  · rw [if_neg hb] at h
    cases h

theorem get_cost_pos (m : Map) (y x : ℤ) : 0 < m.get_cost y x := by
  rw [Map.get_cost]
  cases m.cellAt y x <;> norm_num [Map.cost_normal, Map.cost_danger]

theorem floatSqrt_two_pos : 0 < floatSqrt 2 := by
  rw [floatSqrt]
  apply div_pos _ (by positivity)
  have h1 : ((2 : ℚ) * 2 ^ 104) = (((2 ^ 105 : ℤ) : ℚ)) := by norm_num
  have h2 : ⌊(2 : ℚ) * 2 ^ 104⌋ = 2 ^ 105 := by rw [h1, Int.floor_intCast]
  rw [h2]
  have h3 : 0 < Nat.sqrt ((2 ^ 105 : ℤ)).toNat := Nat.sqrt_pos.mpr (by norm_num)
  exact_mod_cast h3

theorem neighbors_sound {a : AStar} {p : Coord} {nb : Coord × ℚ}
    (hp : a.world.in_bounds p.1 p.2 = true) (h : nb ∈ a.neighbors p) :
    validMove a p nb.1 ∧ 0 < nb.2 ∧ nb.1 ≠ p := by
  rw [AStar.neighbors] at h
  rcases List.mem_append.mp h with h | h
  · obtain ⟨d, hd, he⟩ := List.mem_filterMap.mp h
    by_cases hc : a.world.in_bounds (p.1 + d.1) (p.2 + d.2) = true ∧
        a.world.is_walkable (p.1 + d.1) (p.2 + d.2) = true
    · rw [if_pos hc] at he
      have hnb : nb = ((p.1 + d.1, p.2 + d.2), (1 : ℚ)) :=
        (Option.some.inj he).symm
      subst hnb
      have hdne : d.1 ≠ 0 ∨ d.2 ≠ 0 := by
        simp only [AStar.orthDeltas, List.mem_cons, List.not_mem_nil,
          or_false] at hd
        rcases hd with rfl | rfl | rfl | rfl <;> simp
      refine ⟨⟨hc.2, Or.inl ?_⟩, by norm_num, ?_⟩
      · show ((p.1 + d.1 - p.1, p.2 + d.2 - p.2) ∈ AStar.orthDeltas)
        have e1 : p.1 + d.1 - p.1 = d.1 := by ring
        have e2 : p.2 + d.2 - p.2 = d.2 := by ring
        rw [e1, e2]
        exact hd
      · intro hcon
        have h1 : p.1 + d.1 = p.1 := congrArg Prod.fst hcon
        have h2 : p.2 + d.2 = p.2 := congrArg Prod.snd hcon
        rcases hdne with hd0 | hd0
        · exact hd0 (by omega)
        · exact hd0 (by omega)
    · rw [if_neg hc] at he
      cases he
  · by_cases hdiag : a.allow_diagonal = true
    · rw [if_pos hdiag] at h
      obtain ⟨d, hd, he⟩ := List.mem_filterMap.mp h
      by_cases hc : a.world.in_bounds (p.1 + d.1) (p.2 + d.2) = true ∧
          a.world.is_walkable (p.1 + d.1) (p.2 + d.2) = true
      · rw [if_pos hc] at he
        by_cases hcorner : a.world.in_bounds (p.1 + d.1) p.2 = true ∧
            a.world.in_bounds p.1 (p.2 + d.2) = true ∧
            (a.world.cellAt (p.1 + d.1) p.2 = CellType.OBSTACLE ∨
              a.world.cellAt p.1 (p.2 + d.2) = CellType.OBSTACLE)
        · rw [if_pos hcorner] at he
          cases he
        · rw [if_neg hcorner] at he
          have hnb : nb = ((p.1 + d.1, p.2 + d.2), floatSqrt 2) :=
            (Option.some.inj he).symm
          subst hnb
          have hdne : d.1 ≠ 0 ∧ d.2 ≠ 0 := by
            simp only [AStar.diagDeltas, List.mem_cons, List.not_mem_nil,
              or_false] at hd
            rcases hd with rfl | rfl | rfl | rfl <;> simp
          have hpb := in_bounds_iff.mp hp
          have hqb := in_bounds_iff.mp hc.1
          have hadj1 : a.world.in_bounds (p.1 + d.1) p.2 = true :=
            in_bounds_iff.mpr ⟨hqb.1, hqb.2.1, hpb.2.2.1, hpb.2.2.2⟩
          have hadj2 : a.world.in_bounds p.1 (p.2 + d.2) = true :=
            in_bounds_iff.mpr ⟨hpb.1, hpb.2.1, hqb.2.2.1, hqb.2.2.2⟩
          have hnoobs : ¬ (a.world.cellAt (p.1 + d.1) p.2 = CellType.OBSTACLE ∨
              a.world.cellAt p.1 (p.2 + d.2) = CellType.OBSTACLE) := by
            intro hobs
            exact hcorner ⟨hadj1, hadj2, hobs⟩
          refine ⟨⟨hc.2, Or.inr ⟨hdiag, ?_, ?_, ?_⟩⟩, floatSqrt_two_pos, ?_⟩
          · show ((p.1 + d.1 - p.1, p.2 + d.2 - p.2) ∈ AStar.diagDeltas)
            have e1 : p.1 + d.1 - p.1 = d.1 := by ring
            have e2 : p.2 + d.2 - p.2 = d.2 := by ring
            rw [e1, e2]
            exact hd
          · exact fun hc2 => (not_or.mp hnoobs).1 hc2
          · exact fun hc2 => (not_or.mp hnoobs).2 hc2
          · intro hcon
            have h1 : p.1 + d.1 = p.1 := congrArg Prod.fst hcon
            exact hdne.1 (by omega)
      · rw [if_neg hc] at he
        cases he
    · rw [if_neg hdiag] at h
      cases h

theorem popMin_mem {l : List HElem} {e : HElem} {r : List HElem}
    (h : popMin l = some (e, r)) : e ∈ l := by
  induction l generalizing e r with
  | nil => simp [popMin] at h
  | cons e0 es ih =>
    rw [popMin] at h
    cases hp : popMin es with
    | none =>
      rw [hp] at h
      cases h
      exact List.mem_cons_self _ _
    | some mr =>
      obtain ⟨m, rest⟩ := mr
      rw [hp] at h
      dsimp only at h
      by_cases hlt : hLtB m e0 = true
      · rw [if_pos hlt] at h
        cases h
        exact List.mem_cons_of_mem _ (ih hp)
      · rw [if_neg hlt] at h
        cases h
        exact List.mem_cons_self _ _

theorem popMin_rest_subset {l : List HElem} {e : HElem} {r : List HElem}
    (h : popMin l = some (e, r)) : r ⊆ l := by
  induction l generalizing e r with
  | nil => simp [popMin] at h
  | cons e0 es ih =>
    rw [popMin] at h
    cases hp : popMin es with
    | none =>
      rw [hp] at h
      cases h
      exact fun x hx => absurd hx (List.not_mem_nil x)
    | some mr =>
      obtain ⟨m, rest⟩ := mr
      rw [hp] at h
      dsimp only at h
      by_cases hlt : hLtB m e0 = true
      · rw [if_pos hlt] at h
        cases h
        intro x hx
        rcases List.mem_cons.mp hx with rfl | hx2
        · exact List.mem_cons_self _ _
        · exact List.mem_cons_of_mem _ (ih hp hx2)
      · rw [if_neg hlt] at h
        cases h
        exact fun x hx => List.mem_cons_of_mem _ hx

/-- Member-aware fold preservation. -/
theorem foldl_invariant_mem {α β : Type} {P : α → Prop} {f : α → β → α} :
    ∀ (l : List β), (∀ st b, b ∈ l → P st → P (f st b)) →
      ∀ st, P st → P (l.foldl f st) := by
  intro l
  induction l with
  | nil => intro _ st h; exact h
  | cons b rest ih =>
    intro hf st h
    exact ih (fun st2 b2 hb2 => hf st2 b2 (List.mem_cons_of_mem _ hb2)) _
      (hf st b (List.mem_cons_self _ _) h)

theorem countP_lt {α : Type} {l : List α} {p q : α → Bool}
    (hpq : ∀ x ∈ l, p x = true → q x = true) {w : α} (hw : w ∈ l)
    (hqw : q w = true) (hpw : p w = false) : l.countP p < l.countP q := by
  induction l with
  | nil => simp at hw
  | cons a rest ih =>
    have hle : rest.countP p ≤ rest.countP q :=
      List.countP_mono_left fun x hx => hpq x (List.mem_cons_of_mem _ hx)
    rw [List.countP_cons, List.countP_cons]
    rcases List.mem_cons.mp hw with rfl | hw2
    · rw [hqw, hpw, if_pos (show (true : Bool) = true from rfl),
        if_neg (show ¬ ((false : Bool) = true) by decide)]
      omega
    · have hlt := ih (fun x hx => hpq x (List.mem_cons_of_mem _ hx)) hw2
      by_cases hpa : p a = true
      · rw [hpa, hpq a (List.mem_cons_self _ _) hpa,
          if_pos (show (true : Bool) = true from rfl)]
        omega
      · rw [(show p a = false by simpa using hpa),
          if_neg (show ¬ ((false : Bool) = true) by decide)]
        by_cases hqa : q a = true
        · rw [hqa, if_pos (show (true : Bool) = true from rfl)]
          omega
        · rw [(show q a = false by simpa using hqa),
            if_neg (show ¬ ((false : Bool) = true) by decide)]
          omega

/-- The invariant of the A* search state. -/
structure AInv (a : AStar) (start : Coord) (st : AStar.AState) : Prop where
  start_g : dlookup st.g_score start = some 0
  g_nonneg : ∀ c v, dlookup st.g_score c = some v → 0 ≤ v
  g_inb : ∀ c : Coord, (dlookup st.g_score c).isSome = true →
    a.world.in_bounds c.1 c.2 = true
  cf_edge : ∀ c p, dlookup st.came_from c = some p → validMove a p c
  cf_dom : ∀ c : Coord, (dlookup st.came_from c).isSome = true ↔
    ((dlookup st.g_score c).isSome = true ∧ c ≠ start)
  cf_desc : ∀ c p, dlookup st.came_from c = some p →
    ∃ gc gp, dlookup st.g_score c = some gc ∧ dlookup st.g_score p = some gp ∧
      gp < gc
  open_dom : ∀ e ∈ st.open_set, (dlookup st.g_score e.2.2).isSome = true

theorem astar_insert_inv {a : AStar} {start cur q : Coord} {st : AStar.AState}
    {gcur c t f2 : ℚ} (hinv : AInv a start st)
    (hcur : dlookup st.g_score cur = some gcur)
    (ht : t = gcur + c) (hc : 0 < c)
    (hvm : validMove a cur q) (hqne : q ≠ cur)
    (hcase : dlookup st.g_score q = none ∨
      ∃ v, dlookup st.g_score q = some v ∧ t < v) :
    AInv a start
      { st with
        came_from := dinsert st.came_from q cur
        g_score := dinsert st.g_score q t
        f_score := dinsert st.f_score q f2
        open_set := st.open_set ++ [(f2, t, q)] } := by
  obtain ⟨hstart, hnn, hinb, hedge, hdom, hdesc, hopen⟩ := hinv
  have hgcur0 : 0 ≤ gcur := hnn cur gcur hcur
  have ht0 : 0 < t := by rw [ht]; linarith
  have hqstart : q ≠ start := by
    intro hq
    subst hq
    rcases hcase with hnone | ⟨v, hv, hlt⟩
    · rw [hstart] at hnone
      cases hnone
    · rw [hstart] at hv
      cases hv
      linarith
  refine ⟨?_, ?_, ?_, ?_, ?_, ?_, ?_⟩
  · show dlookup (dinsert st.g_score q t) start = some 0
    rw [dlookup_dinsert, if_neg (fun h => hqstart h.symm)]
    exact hstart
  · intro c2 v hv
    rw [dlookup_dinsert] at hv
    by_cases h2 : c2 = q
    · rw [if_pos h2] at hv
      cases hv
      linarith
    · rw [if_neg h2] at hv
      exact hnn c2 v hv
  · intro c2 hv
    rw [dlookup_dinsert] at hv
    by_cases h2 : c2 = q
    · subst h2
      exact is_walkable_in_bounds hvm.1
    · rw [if_neg h2] at hv
      exact hinb c2 hv
  · intro c2 p2 hcf
    rw [dlookup_dinsert] at hcf
    by_cases h2 : c2 = q
    · rw [if_pos h2] at hcf
      cases hcf
      subst h2
      exact hvm
    · rw [if_neg h2] at hcf
      exact hedge c2 p2 hcf
  · intro c2
    rw [dlookup_dinsert, dlookup_dinsert]
    by_cases h2 : c2 = q
    · subst h2
      rw [if_pos rfl, if_pos rfl]
      simp [hqstart]
    · rw [if_neg h2, if_neg h2]
      exact hdom c2
  · intro c2 p2 hcf
    rw [dlookup_dinsert] at hcf
    by_cases h2 : c2 = q
    · rw [if_pos h2] at hcf
      cases hcf
      subst h2
      refine ⟨t, gcur, ?_, ?_, ?_⟩
      · rw [dlookup_dinsert, if_pos rfl]
      · rw [dlookup_dinsert, if_neg (fun h => hqne h.symm)]
        exact hcur
      · linarith
    · rw [if_neg h2] at hcf
      obtain ⟨gc, gp, hgc, hgp, hlt⟩ := hdesc c2 p2 hcf
      by_cases h3 : p2 = q
      · subst h3
        rcases hcase with hnone | ⟨v, hv, hvlt⟩
        · rw [hgp] at hnone
          cases hnone
        · rw [hgp] at hv
          cases hv
          refine ⟨gc, t, ?_, ?_, ?_⟩
          · rw [dlookup_dinsert, if_neg h2]
            exact hgc
          · rw [dlookup_dinsert, if_pos rfl]
          · linarith
      · refine ⟨gc, gp, ?_, ?_, hlt⟩
        · rw [dlookup_dinsert, if_neg h2]
          exact hgc
        · rw [dlookup_dinsert, if_neg h3]
          exact hgp
  · intro e he
    rcases List.mem_append.mp he with he2 | he2
    · have := hopen e he2
      rw [dlookup_dinsert]
      by_cases h2 : e.2.2 = q
      · rw [if_pos h2]
        rfl
      · rw [if_neg h2]
        exact this
    · have : e = (f2, t, q) := by simpa using he2
      subst this
      rw [dlookup_dinsert]
      simp

theorem processNeighbor_inv {a : AStar} {start goal cur : Coord}
    {st : AStar.AState} {nb : Coord × ℚ}
    (hinv : AInv a start st) (hcur : (dlookup st.g_score cur).isSome = true)
    (hnb : nb ∈ a.neighbors cur) :
    AInv a start (a.processNeighbor goal cur st nb) ∧
      (dlookup (a.processNeighbor goal cur st nb).g_score cur).isSome = true := by
  obtain ⟨gcur, hgcur⟩ := Option.isSome_iff_exists.mp hcur
  have hcurinb : a.world.in_bounds cur.1 cur.2 = true := hinv.g_inb cur hcur
  obtain ⟨hvm, hcpos, hne⟩ := neighbors_sound hcurinb hnb
  have hcost : 0 < a.world.get_cost nb.1.1 nb.1.2 * nb.2 :=
    mul_pos (get_cost_pos _ _ _) hcpos
  rw [AStar.processNeighbor]
  by_cases hcl : nb.1 ∈ st.closed
  · rw [if_pos hcl]
    exact ⟨hinv, hcur⟩
  · rw [if_neg hcl]
    dsimp only
    cases hg : dlookup st.g_score nb.1 with
    | none =>
      dsimp only
      rw [if_pos (show (true : Bool) = true from rfl)]
      constructor
      · exact astar_insert_inv hinv hgcur (by rw [hgcur]; rfl) hcost hvm hne
          (Or.inl hg)
      · show (dlookup (dinsert st.g_score nb.1 _) cur).isSome = true
        rw [dlookup_dinsert, if_neg (fun h => hne h.symm)]
        exact hcur
    | some v =>
      dsimp only
      by_cases hlt :
          (dlookup st.g_score cur).getD 0 +
            a.world.get_cost nb.1.1 nb.1.2 * nb.2 < v
      · rw [if_pos (decide_eq_true hlt)]
        constructor
        · exact astar_insert_inv hinv hgcur (by rw [hgcur]; rfl) hcost hvm hne
            (Or.inr ⟨v, hg, hlt⟩)
        · show (dlookup (dinsert st.g_score nb.1 _) cur).isSome = true
          rw [dlookup_dinsert, if_neg (fun h => hne h.symm)]
          exact hcur
      · rw [if_neg (fun hcon => hlt (of_decide_eq_true hcon))]
        exact ⟨hinv, hcur⟩

/-- Number of came_from entries whose g-score is at most the bound: the
termination measure of the reconstruction walk. -/
def countBelow (cf : List (Coord × Coord)) (g : List (Coord × ℚ)) (b : ℚ) : ℕ :=
  cf.countP (fun e =>
    match dlookup g e.1 with
    | some v => decide (v ≤ b)
    | none => false)

theorem reconstructAux_spec {a : AStar} {start : Coord}
    {cf : List (Coord × Coord)} {g : List (Coord × ℚ)}
    (hedge : ∀ c p, dlookup cf c = some p → validMove a p c)
    (hdom : ∀ c : Coord, (dlookup cf c).isSome = true ↔
      ((dlookup g c).isSome = true ∧ c ≠ start))
    (hdesc : ∀ c p, dlookup cf c = some p →
      ∃ gc gp, dlookup g c = some gc ∧ dlookup g p = some gp ∧ gp < gc) :
    ∀ fuel cur gc, dlookup g cur = some gc →
      countBelow cf g gc < fuel →
      (AStar.reconstructAux fuel cf cur).head? = some cur ∧
      (AStar.reconstructAux fuel cf cur).getLast? = some start ∧
      List.Chain' (fun x y => validMove a y x)
        (AStar.reconstructAux fuel cf cur) ∧
      ∀ q ∈ AStar.reconstructAux fuel cf cur, q = start ∨
        a.world.is_walkable q.1 q.2 = true := by
  intro fuel
  induction fuel with
  | zero => intro cur gc hg hfuel; exact absurd hfuel (by omega)
  | succ fuel ih =>
    intro cur gc hg hfuel
    rw [AStar.reconstructAux]
    cases hcf : dlookup cf cur with
    | none =>
      have hcs : cur = start := by
        by_contra hne
        have h1 : (dlookup cf cur).isSome = true :=
          (hdom cur).mpr ⟨by rw [hg]; rfl, hne⟩
        rw [hcf] at h1
        cases h1
      refine ⟨rfl, ?_, ?_, ?_⟩
      · rw [hcs]; rfl
      · exact List.chain'_singleton cur
      · intro q hq
        rcases List.mem_singleton.mp hq with rfl
        exact Or.inl hcs
    | some p =>
      dsimp only
      obtain ⟨gc2, gp, hgc2, hgp, hlt⟩ := hdesc cur p hcf
      rw [hg] at hgc2
      cases hgc2
      have hmeas : countBelow cf g gp < countBelow cf g gc := by
        apply countP_lt (w := (cur, p))
        · intro e _ he
          cases hge : dlookup g e.1 with
          | none => simp [hge] at he
          | some v =>
            rw [hge] at he
            have hv : v ≤ gp := of_decide_eq_true he
            exact decide_eq_true (le_trans hv (le_of_lt hlt))
        · exact dlookup_some_mem hcf
        · show (match dlookup g cur with
            | some v => decide (v ≤ gc)
            | none => false) = true
          rw [hg]
          exact decide_eq_true (le_refl gc)
        · show (match dlookup g cur with
            | some v => decide (v ≤ gp)
            | none => false) = false
          rw [hg]
          exact decide_eq_false (not_le.mpr hlt)
      have hrec := ih p gp hgp (by
        unfold countBelow at hfuel hmeas ⊢
        omega)
      obtain ⟨hhead, hlast, hchain, hmem⟩ := hrec
      cases hL : AStar.reconstructAux fuel cf p with
      | nil => rw [hL] at hhead; cases hhead
      | cons b tl =>
        rw [hL] at hhead hlast hchain hmem
        have hbp : b = p := by
          rw [List.head?_cons] at hhead
          exact Option.some.inj hhead
        subst hbp
        refine ⟨rfl, ?_, ?_, ?_⟩
        · rw [List.getLast?_cons_cons]
          exact hlast
        · exact List.chain'_cons.mpr ⟨hedge cur b hcf, hchain⟩
        · intro q hq
          rcases List.mem_cons.mp hq with rfl | hq2
          · exact Or.inr (hedge q b hcf).1
          · exact hmem q hq2

theorem loop_sound {a : AStar} {start goal : Coord} :
    ∀ fuel (st : AStar.AState), AInv a start st →
      ∀ path c, a.loop goal fuel st = some (path, c) →
        path.head? = some start ∧ path.getLast? = some goal ∧
        List.Chain' (validMove a) path ∧
        ∀ q ∈ path, q = start ∨ a.world.is_walkable q.1 q.2 = true := by
  intro fuel
  induction fuel with
  | zero => intro st _ path c h; cases h
  | succ fuel ih =>
    intro st hinv path c h
    rw [AStar.loop] at h
    cases hpop : popMin st.open_set with
    | none => rw [hpop] at h; cases h
    | some er =>
      obtain ⟨e, rest⟩ := er
      rw [hpop] at h
      dsimp only at h
      by_cases hcl : e.2.2 ∈ st.closed
      · rw [if_pos hcl] at h
        refine ih { st with open_set := rest } ⟨hinv.start_g, hinv.g_nonneg,
          hinv.g_inb, hinv.cf_edge, hinv.cf_dom, hinv.cf_desc, ?_⟩ _ _ h
        intro e2 he2
        exact hinv.open_dom e2 (popMin_rest_subset hpop he2)
      · rw [if_neg hcl] at h
        by_cases hgoal : e.2.2 = goal
        · rw [if_pos hgoal] at h
          cases h
          have hsome := hinv.open_dom e (popMin_mem hpop)
          obtain ⟨gc, hgc⟩ := Option.isSome_iff_exists.mp hsome
          have hfuel : countBelow st.came_from st.g_score gc <
              st.came_from.length + 1 :=
            Nat.lt_succ_of_le (List.countP_le_length _)
          obtain ⟨hh, hl, hc, hm⟩ := reconstructAux_spec hinv.cf_edge
            hinv.cf_dom hinv.cf_desc (st.came_from.length + 1) e.2.2 gc hgc
            hfuel
          refine ⟨?_, ?_, ?_, ?_⟩
          · rw [AStar.reconstruct_path, List.head?_reverse]
            exact hl
          · rw [AStar.reconstruct_path, List.getLast?_reverse, hh, hgoal]
          · rw [AStar.reconstruct_path]
            exact List.chain'_reverse.mpr hc
          · intro q hq
            rw [AStar.reconstruct_path, List.mem_reverse] at hq
            exact hm q hq
        · rw [if_neg hgoal] at h
          have hsome := hinv.open_dom e (popMin_mem hpop)
          have hopen1 : ∀ e2 ∈ rest, (dlookup st.g_score e2.2.2).isSome = true :=
            fun e2 he2 => hinv.open_dom e2 (popMin_rest_subset hpop he2)
          have h2 := foldl_invariant_mem (P := fun s =>
              AInv a start s ∧ (dlookup s.g_score e.2.2).isSome = true)
            (f := a.processNeighbor goal e.2.2)
            (a.neighbors e.2.2)
            (fun s nb hnb hp => processNeighbor_inv hp.1 hp.2 hnb)
            { st with open_set := rest, closed := e.2.2 :: st.closed }
            ⟨⟨hinv.start_g, hinv.g_nonneg, hinv.g_inb, hinv.cf_edge,
              hinv.cf_dom, hinv.cf_desc, hopen1⟩, hsome⟩
          exact ih _ h2.1 _ _ h

/-- C1: whenever find_path returns a path, that path starts at start, ends at
goal, every cell on it is walkable, and every consecutive pair of coordinates
is a single orthogonal step or, when diagonal movement is enabled, a single
diagonal step that is rejected whenever either adjacent orthogonal corner
cell is an obstacle (packaged as validMove). -/
theorem C1_find_path_valid {a : AStar} {start goal : Coord}
    {path : List Coord} {c : ℚ}
    (h : a.find_path start goal = some (path, c)) :
    path.head? = some start ∧ path.getLast? = some goal ∧
    List.Chain' (validMove a) path ∧
    ∀ q ∈ path, a.world.is_walkable q.1 q.2 = true := by
  rw [AStar.find_path] at h
  by_cases hb : a.world.in_bounds start.1 start.2 = true ∧
      a.world.in_bounds goal.1 goal.2 = true
  · rw [if_neg (not_not_intro hb)] at h
    by_cases hw : a.world.is_walkable start.1 start.2 = true ∧
        a.world.is_walkable goal.1 goal.2 = true
    · rw [if_neg (not_not_intro hw)] at h
      dsimp only at h
      have hinv : AInv a start
          { open_set := [(a.heuristic start goal, 0, start)]
            g_score := [(start, 0)]
            f_score := [(start, a.heuristic start goal)]
            came_from := []
            closed := [] } := by
        refine ⟨?_, ?_, ?_, ?_, ?_, ?_, ?_⟩
        · simp [dlookup]
        · intro c2 v hv
          simp only [dlookup] at hv
          by_cases hc2 : start = c2
          · rw [if_pos hc2] at hv
            cases hv
            norm_num
          · rw [if_neg hc2] at hv
            cases hv
        · intro c2 hv
          simp only [dlookup] at hv
          by_cases hc2 : start = c2
          · subst hc2
            exact hb.1
          · rw [if_neg hc2] at hv
            cases hv
        · intro c2 p hv
          cases hv
        · intro c2
          constructor
          · intro hv
            cases hv
          · intro ⟨h1, h2⟩
            simp only [dlookup] at h1
            rw [if_neg (fun he => h2 he.symm)] at h1
            cases h1
        · intro c2 p hv
          cases hv
        · intro e he
          rcases List.mem_singleton.mp he with rfl
          simp [dlookup]
      have hmain := loop_sound a.fuelBound _ hinv path c h
      refine ⟨hmain.1, hmain.2.1, hmain.2.2.1, ?_⟩
      intro q hq
      rcases hmain.2.2.2 q hq with rfl | hwq
      · exact hw.1
      · exact hwq
    · rw [if_pos hw] at h
      cases h
  · rw [if_pos hb] at h
    cases h

set_option maxHeartbeats 2000000 in
theorem C1_find_path_valid_witness :
    wAStar.find_path (0, 0) (0, 4) =
      some ([(0, 0), (0, 1), (0, 2), (0, 3), (0, 4)], 4) ∧
    (([(0, 0), (0, 1), (0, 2), (0, 3), (0, 4)] : List Coord).head? =
        some (0, 0) ∧
      ([(0, 0), (0, 1), (0, 2), (0, 3), (0, 4)] : List Coord).getLast? =
        some (0, 4) ∧
      List.Chain' (validMove wAStar)
        [(0, 0), (0, 1), (0, 2), (0, 3), (0, 4)] ∧
      ∀ q ∈ ([(0, 0), (0, 1), (0, 2), (0, 3), (0, 4)] : List Coord),
        wAStar.world.is_walkable q.1 q.2 = true) :=
  ⟨by decide, C1_find_path_valid (c := 4) (by decide)⟩
